import Mathlib

/-!
Verification of the Loris `RealTimeSynthesizer` component of the Paraphrasis
repository (`src/ThirdParty/Loris/src/RealtimeSynthesizer.h`).

The header file contains the complete definitions of the data container
`PartialStruct` (with its nested `SynthesizerState`), the static phase-wrap
routine `wrapPi`, and the queue-clearing helper; those are embedded here
directly from the source.  The member functions `setup`, `synthesizeNext`,
`prepareForNote`, the private per-partial kernel `synthesize`, and the
validating constructors are only declared in the header (their translation
unit is not part of the repository), so they are modelled from the design
specification, section by section; every such definition carries a doc
comment starting with `Modelled from the spec:` naming what is missing.

Numeric conventions: C++ `double` values are modelled as real numbers `ℝ`,
C++ `int` as `ℤ`.  Sample offsets, which the specification obtains as
`round(time × Fs)`, are carried as integers.  The caller-owned sample buffer
is modelled as a total function `ℕ → ℝ` that the engine updates by pointwise
addition.  The external noise/modulation collaborator is an abstract
function `ℝ → ℝ` of the running phase, carried as an engine field.
-/

open Real

/-- `Pi` constant from the header (`const double Pi = M_PI`). -/
noncomputable def PiConst : ℝ := Real.pi

/-- Breakpoint of a partial: one analyzed instant carrying frequency (Hz),
amplitude (linear), bandwidth (noise-energy fraction) and phase (radians).
The class itself lives in `Breakpoint.h` (outside the repository); the field
set is taken from the specification's Control Point description. -/
structure Breakpoint where
  frequency : ℝ
  amplitude : ℝ
  bandwidth : ℝ
  phase : ℝ

instance : Inhabited Breakpoint := ⟨⟨0, 0, 0, 0⟩⟩

/-- `PartialStruct` enum value `NoBreakpointProcessed = 0`. -/
def NoBreakpointProcessed : ℤ := 0

/-- `PartialStruct` enum value `FirstBreakpoint` (next after 0, hence 1). -/
def FirstBreakpoint : ℤ := 1

/-- Nested `PartialStruct::SynthesizerState` from the header:
`currentSamp` and `lastBreakpoint` have in-class initializers, while
`prevFrequency` is declared without one, so a default-constructed value
carries no initialization guarantee for it.  Accordingly the Lean structure
gives default values to exactly the fields that have them in C++. -/
structure SynthesizerState where
  currentSamp : ℤ := 0
  lastBreakpoint : ℤ := NoBreakpointProcessed
  prevFrequency : ℝ

/-- `PartialStruct` from the header: flattened partial data plus mutable
per-partial progress state.  The C++ breakpoint vector stores
`pair<double, Breakpoint>`; per the specification the first component holds
the absolute sample offset `round(time × Fs)`, an integral value, so it is
carried here as `ℤ`. -/
structure PartialStruct where
  duration : ℝ := 0
  startTime : ℝ := 0
  endTime : ℝ := 0
  numBreakpoints : ℤ := 0
  breakpoints : List (ℤ × Breakpoint) := []
  state : SynthesizerState

/-- A `PartialStruct` as default-constructed in C++: every field with an
in-class initializer takes it, and `prevFrequency` takes an arbitrary
(indeterminate) value `pf`. -/
def mkDefaultPartialStruct (pf : ℝ) : PartialStruct :=
  { state := { prevFrequency := pf } }

/-- `RealTimeSynthesizer::wrapPi` from the header, verbatim:
`x + TwoPi * floor(0.5 + (-x / TwoPi))` with `TwoPi = 2.0 * Pi`. -/
noncomputable def wrapPi (x : ℝ) : ℝ :=
  x + (2 * π) * ((⌊(0.5 : ℝ) + -x / (2 * π)⌋ : ℤ) : ℝ)

/-- Claim C1: for every real input `x`, `wrapPi x` lies in the half-open
interval `(-π, π]`, and it differs from `x` by an exact integer multiple of
`2π`, so the sinusoid value (cosine and sine) at the wrapped phase equals the
sinusoid value at the original phase. -/
theorem wrapPi_range_period (x : ℝ) :
    (-π < wrapPi x ∧ wrapPi x ≤ π) ∧
      ∃ k : ℤ, wrapPi x - x = 2 * π * k ∧
        Real.cos (wrapPi x) = Real.cos x ∧ Real.sin (wrapPi x) = Real.sin x := by
  have h2 : (0 : ℝ) < 2 * π := by positivity
  set z : ℝ := (0.5 : ℝ) + -x / (2 * π) with hz
  have hw : wrapPi x = x + 2 * π * ((⌊z⌋ : ℤ) : ℝ) := by rw [wrapPi]
  have hfl : ((⌊z⌋ : ℤ) : ℝ) ≤ z := Int.floor_le z
  have hfg : z - 1 < ((⌊z⌋ : ℤ) : ℝ) := Int.sub_one_lt_floor z
  have hxz : 2 * π * z = π - x := by
    rw [hz]
    field_simp
    ring
  have hup : 2 * π * ((⌊z⌋ : ℤ) : ℝ) ≤ π - x := by
    calc 2 * π * ((⌊z⌋ : ℤ) : ℝ) ≤ 2 * π * z := by nlinarith
    _ = π - x := hxz
  have hlo : -π - x < 2 * π * ((⌊z⌋ : ℤ) : ℝ) := by
    have h1 : 2 * π * (z - 1) < 2 * π * ((⌊z⌋ : ℤ) : ℝ) := by nlinarith
    nlinarith
  refine ⟨⟨by rw [hw]; linarith, by rw [hw]; linarith⟩, ⟨⌊z⌋, by rw [hw]; ring, ?_, ?_⟩⟩
  · have : wrapPi x = x + (⌊z⌋ : ℤ) * (2 * π) := by rw [hw]; ring
    rw [this, Real.cos_add_int_mul_two_pi]
  · have : wrapPi x = x + (⌊z⌋ : ℤ) * (2 * π) := by rw [hw]; ring
    rw [this, Real.sin_add_int_mul_two_pi]

/-- Claim C10: a default-constructed `PartialStruct` has `duration`,
`startTime`, `endTime` equal to `0.0`, `numBreakpoints = 0`, an empty
breakpoint sequence, progress state `currentSamp = 0` and
`lastBreakpoint = NoBreakpointProcessed` (sentinel value `0`), while
`prevFrequency` carries whatever indeterminate value `pf` it happens to get
(no initialization guarantee). -/
theorem mkDefaultPartialStruct_fields (pf : ℝ) :
    (mkDefaultPartialStruct pf).duration = 0 ∧
      (mkDefaultPartialStruct pf).startTime = 0 ∧
      (mkDefaultPartialStruct pf).endTime = 0 ∧
      (mkDefaultPartialStruct pf).numBreakpoints = 0 ∧
      (mkDefaultPartialStruct pf).breakpoints = [] ∧
      (mkDefaultPartialStruct pf).state.currentSamp = 0 ∧
      (mkDefaultPartialStruct pf).state.lastBreakpoint = NoBreakpointProcessed ∧
      NoBreakpointProcessed = 0 ∧ FirstBreakpoint = 1 ∧
      (mkDefaultPartialStruct pf).state.prevFrequency = pf := by
  refine ⟨rfl, rfl, rfl, rfl, rfl, rfl, rfl, rfl, rfl, rfl⟩

/-! ## The incremental synthesis engine, modelled from the specification

The member functions of `RealTimeSynthesizer` are only declared in the
header; the definitions below follow the specification's component design
(sections 4.1–4.5) and data model (section 3). -/

/-- Breakpoint lookup with the zero breakpoint as out-of-range default. -/
def bpAt (bps : List (ℤ × Breakpoint)) (k : ℕ) : ℤ × Breakpoint :=
  bps.getD k (0, default)

/-- Absolute sample offset of the first breakpoint of a partial. -/
def startOff (p : PartialStruct) : ℤ := (bpAt p.breakpoints 0).1

/-- Exclusive absolute end offset: one past the last breakpoint's offset
(the last breakpoint's sample is rendered, so the partial's total rendered
length is `endOff - startOff` samples). -/
def endOff (p : PartialStruct) : ℤ :=
  (bpAt p.breakpoints (p.breakpoints.length - 1)).1 + 1

/-- Absolute offset of the next sample this partial will render:
its start offset plus its progress counter `currentSamp`. -/
def posOf (p : PartialStruct) : ℤ := startOff p + p.state.currentSamp

/-- Modelled from the spec: number of samples a queued partial renders in the
current call — clipped to the window's end (`bound`, exclusive) and to the
partial's own remaining duration (spec 4.3 step 2). -/
def renderCount (bound : ℤ) (p : PartialStruct) : ℕ :=
  (min (endOff p) bound - posOf p).toNat

/-- Modelled from the spec: the monotonic bracketing-control-point scan of
spec 4.4 — starting from segment index `k`, advance while the next
breakpoint's offset is at most the current offset `o` and a further segment
exists.  `fuel` (instantiated with the breakpoint count) bounds the scan. -/
def advanceCursor (bps : List (ℤ × Breakpoint)) (o : ℤ) : ℕ → ℕ → ℕ
  | k, 0 => k
  | k, fuel + 1 =>
    if k + 2 < bps.length ∧ (bpAt bps (k + 1)).1 ≤ o then
      advanceCursor bps o (k + 1) fuel
    else k

/-- Modelled from the spec: linear interpolation of frequency, amplitude and
bandwidth between the bracketing breakpoints `k` and `k+1` by fractional
position of offset `o` in the segment (spec 4.4). -/
noncomputable def interpAt (bps : List (ℤ × Breakpoint)) (k : ℕ) (o : ℤ) :
    ℝ × ℝ × ℝ :=
  let c0 := bpAt bps k
  let c1 := bpAt bps (k + 1)
  let frac : ℝ := ((o : ℝ) - (c0.1 : ℝ)) / ((c1.1 : ℝ) - (c0.1 : ℝ))
  (c0.2.frequency + frac * (c1.2.frequency - c0.2.frequency),
   c0.2.amplitude + frac * (c1.2.amplitude - c0.2.amplitude),
   c0.2.bandwidth + frac * (c1.2.bandwidth - c0.2.bandwidth))

/-- Bracketing segment index for the partial's current sample: the stored
1-based `lastBreakpoint` cursor (or the first segment when the sentinel
`NoBreakpointProcessed` says the partial has not started) advanced forward
only, per spec 4.4. -/
def curCursor (p : PartialStruct) : ℕ :=
  advanceCursor p.breakpoints (posOf p)
    (if p.state.lastBreakpoint = NoBreakpointProcessed then 0
     else (p.state.lastBreakpoint - 1).toNat)
    p.breakpoints.length

/-- Interpolated instantaneous frequency at the partial's current sample. -/
noncomputable def instFreq (p : PartialStruct) : ℝ :=
  (interpAt p.breakpoints (curCursor p) (posOf p)).1

/-- Interpolated instantaneous amplitude at the partial's current sample. -/
noncomputable def instAmp (p : PartialStruct) : ℝ :=
  (interpAt p.breakpoints (curCursor p) (posOf p)).2.1

/-- Interpolated instantaneous bandwidth at the partial's current sample. -/
noncomputable def instBw (p : PartialStruct) : ℝ :=
  (interpAt p.breakpoints (curCursor p) (posOf p)).2.2

/-- Modelled from the spec: running phase at the partial's current sample.
At the very first rendered sample the breakpoint phase fixes the absolute
phase (spec 3, Control Point); afterwards the accumulated phase is advanced
by the previous sample's frequency (`prevFrequency` seeds every new call,
spec 4.4) times `2π/Fs` and wrapped into `(-π, π]` by `wrapPi`. -/
noncomputable def samplePhase (srate : ℝ) (p : PartialStruct) (ph : ℝ) : ℝ :=
  if p.state.lastBreakpoint = NoBreakpointProcessed then
    (bpAt p.breakpoints 0).2.phase
  else wrapPi (ph + p.state.prevFrequency * (2 * π) * (1 / srate))

/-- Modelled from the spec: bandwidth-enhanced sample value of spec 4.4,
`amp × (sqrt(1-bw)·cos(phase) + sqrt(bw)·noise(phase))`, gated to zero
amplitude when the instantaneous frequency reaches the Nyquist limit
`Fs/2` (spec 4.3, per-sample amplitude gate). -/
noncomputable def sampleValue (srate : ℝ) (noise : ℝ → ℝ)
    (p : PartialStruct) (ph : ℝ) : ℝ :=
  (if srate / 2 ≤ instFreq p then 0 else instAmp p) *
    (Real.sqrt (1 - instBw p) * Real.cos (samplePhase srate p ph) +
      Real.sqrt (instBw p) * noise (samplePhase srate p ph))

/-- Modelled from the spec: one step of the per-partial kernel (spec 4.4) —
emit the sample value at the current offset and advance the progress state:
`currentSamp` increments, `lastBreakpoint` records the bracketing segment
(1-based), `prevFrequency` records the emitted instantaneous frequency. -/
noncomputable def synthesizeSample (srate : ℝ) (noise : ℝ → ℝ)
    (p : PartialStruct) (ph : ℝ) : PartialStruct × ℝ × ℝ :=
  ({ p with state :=
      { currentSamp := p.state.currentSamp + 1,
        lastBreakpoint := (curCursor p : ℤ) + 1,
        prevFrequency := instFreq p } },
   samplePhase srate p ph, sampleValue srate noise p ph)

/-- Pointwise additive write of value `v` at absolute sample offset `o` into
the caller-owned buffer (spec 4.4: `+=`, never overwritten; a negative
offset lies outside the buffer and is dropped). -/
noncomputable def addAt (buf : ℕ → ℝ) (o : ℤ) (v : ℝ) : ℕ → ℝ :=
  fun j => if (j : ℤ) = o then buf j + v else buf j

/-- Modelled from the spec: the private member
`RealTimeSynthesizer::synthesize(PartialStruct &, const int samples)` —
render `n` consecutive samples of one partial, threading the partial's
progress state and running phase and accumulating each sample value into
the buffer at its absolute offset (spec 4.4). -/
noncomputable def synthesize (srate : ℝ) (noise : ℝ → ℝ) :
    ℕ → PartialStruct × ℝ × (ℕ → ℝ) → PartialStruct × ℝ × (ℕ → ℝ)
  | 0, st => st
  | n + 1, (p, ph, buf) =>
    let r := synthesizeSample srate noise p ph
    synthesize srate noise n (r.1, r.2.1, addAt buf (posOf p) r.2.2)

/-- Engine state of `RealTimeSynthesizer`.  `srateHz` and `fadeTimeSec` are
the configuration inherited from the `Synthesizer` base class (outside the
repository); `noise` is the external noise/modulation collaborator of
spec 6; `partials`, `partialIdx`, `processedSamples` and
`partialsBeingProcessed` are the private members of the header.  The queue
holds non-owning references (indices into `partials`) paired with the
referenced partial's running phase, which must persist across calls to
realize the block-boundary phase continuity of spec 4.4. -/
structure RealTimeSynthesizer where
  srateHz : ℝ
  fadeTimeSec : ℝ
  OneOverSrate : ℝ
  noise : ℝ → ℝ
  partials : List PartialStruct
  partialIdx : ℕ
  processedSamples : ℕ
  partialsBeingProcessed : List (ℕ × ℝ)
  buffer : ℕ → ℝ

attribute [ext] RealTimeSynthesizer

/-- Out-of-range default partial. -/
def dfltP : PartialStruct := { state := { prevFrequency := 0 } }

/-- Modelled from the spec: the admission scan of spec 4.3 step 1 — starting
at the next-partial-to-admit index, push every partial whose start offset
falls before the window's end `bound` onto the queue (with a fresh running
phase) and advance the index past it. -/
def enqueueNew (ps : List PartialStruct) (bound : ℤ) (idx : ℕ) :
    ℕ × List (ℕ × ℝ) :=
  if h : idx < ps.length then
    if startOff (ps.getD idx dfltP) < bound then
      let r := enqueueNew ps bound (idx + 1)
      (r.1, (idx, 0) :: r.2)
    else (idx, [])
  else (idx, [])
termination_by ps.length - idx
decreasing_by omega

/-- Modelled from the spec: spec 4.3 steps 2–3 — pop each queue entry once,
render its contribution to the current window (clipped by `renderCount`),
write the updated snapshot back, and requeue the entry behind the others
unless the partial is now complete (retirement, spec 3 lifecycle). -/
noncomputable def processQueue (srate : ℝ) (noise : ℝ → ℝ) (bound : ℤ) :
    List (ℕ × ℝ) → List PartialStruct → (ℕ → ℝ) →
      List PartialStruct × (ℕ → ℝ) × List (ℕ × ℝ)
  | [], ps, buf => (ps, buf, [])
  | (i, ph) :: rest, ps, buf =>
    let p := ps.getD i dfltP
    let r := synthesize srate noise (renderCount bound p) (p, ph, buf)
    let out := processQueue srate noise bound rest (ps.set i r.1) r.2.2
    (out.1, out.2.1,
      (if endOff r.1 ≤ posOf r.1 then [] else [(i, r.2.1)]) ++ out.2.2)

/-- Modelled from the spec: `RealTimeSynthesizer::synthesizeNext(samples)`
(spec 4.3) — admit the partials starting in the window
`[processedSamples, processedSamples + samples)`, render every queued
partial's contribution, retire the completed ones, and advance the sample
clock `processedSamples` by `samples`. -/
noncomputable def synthesizeNext (samples : ℕ) (s : RealTimeSynthesizer) :
    RealTimeSynthesizer :=
  let bound : ℤ := (s.processedSamples : ℤ) + samples
  let adm := enqueueNew s.partials bound s.partialIdx
  let r := processQueue s.srateHz s.noise bound
    (s.partialsBeingProcessed ++ adm.2) s.partials s.buffer
  { s with partials := r.1, buffer := r.2.1, partialsBeingProcessed := r.2.2,
           partialIdx := adm.1,
           processedSamples := s.processedSamples + samples }

/-- `RealTimeSynthesizer::clearPartialsBeingProcessed` from the header:
pop the queue until it is empty. -/
def clearPartialsBeingProcessed (s : RealTimeSynthesizer) :
    RealTimeSynthesizer :=
  { s with partialsBeingProcessed := [] }

/-- Modelled from the spec: the negligible-amplitude threshold of spec 4.1
(a boundary breakpoint whose amplitude is already at or below it gets no
synthetic fade anchor).  The specification does not fix its value; zero is
used, the weakest choice. -/
def negligibleAmp : ℝ := 0

/-- A synthetic zero-amplitude fade anchor derived from a boundary
breakpoint (spec 4.1). -/
def zeroAnchor (b : Breakpoint) : Breakpoint := { b with amplitude := 0 }

/-- First (time, breakpoint) pair of a raw trajectory. -/
def rawHead (raw : List (ℝ × Breakpoint)) : ℝ × Breakpoint :=
  raw.getD 0 (0, default)

/-- Last (time, breakpoint) pair of a raw trajectory. -/
def rawLast (raw : List (ℝ × Breakpoint)) : ℝ × Breakpoint :=
  raw.getD (raw.length - 1) (0, default)

/-- Modelled from the spec: fade-boundary insertion of spec 4.1 — prepend a
zero-amplitude anchor `fadeTime` seconds before the first real point and
append one `fadeTime` seconds after the last real point, unless the
corresponding boundary amplitude is already at or below the negligible
threshold, in which case that end gets no synthetic point. -/
noncomputable def fadedPoints (fadeTime : ℝ) (raw : List (ℝ × Breakpoint)) :
    List (ℝ × Breakpoint) :=
  (if negligibleAmp < (rawHead raw).2.amplitude then
    [((rawHead raw).1 - fadeTime, zeroAnchor (rawHead raw).2)]
   else []) ++ raw ++
  (if negligibleAmp < (rawLast raw).2.amplitude then
    [((rawLast raw).1 + fadeTime, zeroAnchor (rawLast raw).2)]
   else [])

/-- Modelled from the spec: Partial Snapshot construction (spec 4.1) — apply
the fade-boundary insertion, precompute `startTime`, `endTime`, `duration`
and the breakpoint count, convert every time to an absolute sample offset by
`round(time × Fs)`, and start the progress state at the beginning. -/
noncomputable def normalizeP (srate fadeTime : ℝ)
    (raw : List (ℝ × Breakpoint)) : PartialStruct :=
  let pts := fadedPoints fadeTime raw
  { startTime := (rawHead pts).1,
    endTime := (rawLast pts).1,
    duration := (rawLast pts).1 - (rawHead pts).1,
    numBreakpoints := (pts.length : ℤ),
    breakpoints := pts.map (fun tb => (round (tb.1 * srate), tb.2)),
    state := { prevFrequency := (rawHead pts).2.frequency } }

/-- Ordered insertion by snapshot start time. -/
noncomputable def insertByStart (p : PartialStruct) :
    List PartialStruct → List PartialStruct
  | [] => [p]
  | q :: t =>
    if p.startTime ≤ q.startTime then p :: q :: t else q :: insertByStart p t

/-- Modelled from the spec: the one-time sort of the snapshot collection by
start time performed in `setup` (spec 4.3 step 1 relies on it). -/
noncomputable def sortByStart : List PartialStruct → List PartialStruct
  | [] => []
  | p :: t => insertByStart p (sortByStart t)

/-- Modelled from the spec: `RealTimeSynthesizer::setup(partials)`
(spec 4.2) — replace all engine state: clear the processing queue, rebuild
the snapshot collection by normalizing every raw partial (spec 4.1) and
sorting by start time, reset the sample clock `processedSamples` to 0 and
the next-partial-to-admit index to the earliest-starting partial. -/
noncomputable def setup (raw : List (List (ℝ × Breakpoint)))
    (s : RealTimeSynthesizer) : RealTimeSynthesizer :=
  { s with
    partials := sortByStart (raw.map (normalizeP s.srateHz s.fadeTimeSec)),
    partialIdx := 0, processedSamples := 0, partialsBeingProcessed := [] }

/-- Frequency rescaling of one breakpoint entry: the stored frequency is
multiplied by `c`; the offset and all other parameters are untouched. -/
def scaleBp (c : ℝ) (tb : ℤ × Breakpoint) : ℤ × Breakpoint :=
  (tb.1, { tb.2 with frequency := c * tb.2.frequency })

/-- Frequency rescaling of one snapshot: every stored breakpoint frequency
is multiplied by `c`; offsets, amplitudes, bandwidths, phases, the derived
times and the progress state are untouched. -/
def scaleFreq (c : ℝ) (p : PartialStruct) : PartialStruct :=
  { p with breakpoints := p.breakpoints.map (scaleBp c) }

/-- Modelled from the spec: `RealTimeSynthesizer::prepareForNote(freqScale)`
(spec 4.5) — rescale every loaded partial's stored frequency values by
`freqScale` and nothing else. -/
noncomputable def prepareForNote (freqScale : ℝ)
    (s : RealTimeSynthesizer) : RealTimeSynthesizer :=
  { s with partials := s.partials.map (scaleFreq freqScale) }

/-- The Loris exception relevant to the constructors: `InvalidArgument`
(thrown on invalid configuration per the header's doc comments). -/
inductive LorisError
  | InvalidArgument
deriving DecidableEq

/-- Modelled from the spec: the validating construction of the engine
(header constructors, spec 7 `InvalidConfiguration`) — a non-positive sample
rate or a negative fade time raises `InvalidArgument` and the call is fatal
(no engine is produced); otherwise the default-empty engine is returned. -/
noncomputable def mkRealTimeSynthesizer (srate fadeTime : ℝ)
    (buffer : ℕ → ℝ) (noise : ℝ → ℝ) :
    Except LorisError RealTimeSynthesizer :=
  if srate ≤ 0 then .error .InvalidArgument
  else if fadeTime < 0 then .error .InvalidArgument
  else .ok { srateHz := srate, fadeTimeSec := fadeTime,
             OneOverSrate := 1 / srate, noise := noise, partials := [],
             partialIdx := 0, processedSamples := 0,
             partialsBeingProcessed := [], buffer := buffer }

/-- A streaming-phase engine operation (spec 5 lifecycle between `setup`
calls): a `synthesizeNext` block or a `prepareForNote` rescale. -/
inductive EngineOp
  | synth : ℕ → EngineOp
  | note : ℝ → EngineOp

/-- Apply one engine operation. -/
noncomputable def applyOp : EngineOp → RealTimeSynthesizer → RealTimeSynthesizer
  | .synth n, s => synthesizeNext n s
  | .note c, s => prepareForNote c s

/-- Apply a sequence of engine operations in order. -/
noncomputable def runOps : List EngineOp → RealTimeSynthesizer → RealTimeSynthesizer
  | [], s => s
  | op :: t, s => runOps t (applyOp op s)

/-- Queue well-formedness maintained by the engine between calls: queue
entries reference pairwise-distinct, already-admitted snapshots, and the
admission index never passes the end of the collection. -/
def WFEngine (s : RealTimeSynthesizer) : Prop :=
  (s.partialsBeingProcessed.map Prod.fst).Nodup ∧
    (∀ e ∈ s.partialsBeingProcessed, e.1 < s.partialIdx) ∧
    s.partialIdx ≤ s.partials.length

/-! ## Kernel lemmas: the per-partial render is a per-sample fold that
advances the progress counter and accumulates additively into the buffer. -/

theorem synthesizeSample_fst (sr : ℝ) (nz : ℝ → ℝ) (p : PartialStruct)
    (ph : ℝ) :
    (synthesizeSample sr nz p ph).1 =
      { p with state :=
        { currentSamp := p.state.currentSamp + 1,
          lastBreakpoint := (curCursor p : ℤ) + 1,
          prevFrequency := instFreq p } } := rfl

theorem synthesize_zero (sr : ℝ) (nz : ℝ → ℝ)
    (x : PartialStruct × ℝ × (ℕ → ℝ)) : synthesize sr nz 0 x = x := rfl

theorem synthesize_succ (sr : ℝ) (nz : ℝ → ℝ) (n : ℕ) (p : PartialStruct)
    (ph : ℝ) (buf : ℕ → ℝ) :
    synthesize sr nz (n + 1) (p, ph, buf) =
      synthesize sr nz n ((synthesizeSample sr nz p ph).1,
        (synthesizeSample sr nz p ph).2.1,
        addAt buf (posOf p) (synthesizeSample sr nz p ph).2.2) := rfl

theorem synthesize_add (sr : ℝ) (nz : ℝ → ℝ) (m n : ℕ) :
    ∀ x : PartialStruct × ℝ × (ℕ → ℝ),
      synthesize sr nz (m + n) x = synthesize sr nz n (synthesize sr nz m x) := by
  induction m with
  | zero => intro x; rw [Nat.zero_add, synthesize_zero]
  | succ m ih =>
    intro x
    obtain ⟨p, ph, buf⟩ := x
    rw [Nat.succ_add, synthesize_succ, synthesize_succ, ih]

theorem synthesize_breakpoints (sr : ℝ) (nz : ℝ → ℝ) (c : ℕ) :
    ∀ x : PartialStruct × ℝ × (ℕ → ℝ),
      (synthesize sr nz c x).1.breakpoints = x.1.breakpoints := by
  induction c with
  | zero => intro x; rfl
  | succ c ih =>
    intro x
    obtain ⟨p, ph, buf⟩ := x
    rw [synthesize_succ, ih]
    rfl

theorem synthesize_currentSamp (sr : ℝ) (nz : ℝ → ℝ) (c : ℕ) :
    ∀ x : PartialStruct × ℝ × (ℕ → ℝ),
      (synthesize sr nz c x).1.state.currentSamp =
        x.1.state.currentSamp + c := by
  induction c with
  | zero => intro x; rw [synthesize_zero]; omega
  | succ c ih =>
    intro x
    obtain ⟨p, ph, buf⟩ := x
    rw [synthesize_succ, ih]
    simp only [synthesizeSample_fst]
    omega

theorem synthesize_startOff (sr : ℝ) (nz : ℝ → ℝ) (c : ℕ)
    (x : PartialStruct × ℝ × (ℕ → ℝ)) :
    startOff (synthesize sr nz c x).1 = startOff x.1 := by
  unfold startOff; rw [synthesize_breakpoints]

theorem synthesize_endOff (sr : ℝ) (nz : ℝ → ℝ) (c : ℕ)
    (x : PartialStruct × ℝ × (ℕ → ℝ)) :
    endOff (synthesize sr nz c x).1 = endOff x.1 := by
  unfold endOff; rw [synthesize_breakpoints]

theorem synthesize_posOf (sr : ℝ) (nz : ℝ → ℝ) (c : ℕ)
    (x : PartialStruct × ℝ × (ℕ → ℝ)) :
    posOf (synthesize sr nz c x).1 = posOf x.1 + c := by
  unfold posOf
  rw [synthesize_startOff, synthesize_currentSamp]
  omega

/-- Buffer decomposition of the per-partial render: the final partial state
and phase do not depend on the incoming buffer, and the outgoing buffer is
the incoming one plus the contribution computed over the all-zero buffer. -/
theorem synthesize_split_buffer (sr : ℝ) (nz : ℝ → ℝ) (c : ℕ) :
    ∀ (p : PartialStruct) (ph : ℝ) (buf : ℕ → ℝ),
      synthesize sr nz c (p, ph, buf) =
        ((synthesize sr nz c (p, ph, fun _ => 0)).1,
         (synthesize sr nz c (p, ph, fun _ => 0)).2.1,
         fun j => buf j + (synthesize sr nz c (p, ph, fun _ => 0)).2.2 j) := by
  induction c with
  | zero =>
    intro p ph buf
    rw [synthesize_zero, synthesize_zero]
    refine Prod.ext rfl (Prod.ext rfl ?_)
    funext j
    simp
  | succ c ih =>
    intro p ph buf
    rw [synthesize_succ, synthesize_succ]
    rw [ih _ _ (addAt buf (posOf p) (synthesizeSample sr nz p ph).2.2)]
    rw [ih _ _ (addAt (fun _ => 0) (posOf p) (synthesizeSample sr nz p ph).2.2)]
    refine Prod.ext rfl (Prod.ext rfl ?_)
    funext j
    simp only [addAt]
    by_cases h : (j : ℤ) = posOf p
    · simp only [if_pos h]
      ring
    · simp only [if_neg h]
      ring

theorem synthesize_fst_indep (sr : ℝ) (nz : ℝ → ℝ) (c : ℕ)
    (p : PartialStruct) (ph : ℝ) (buf : ℕ → ℝ) :
    (synthesize sr nz c (p, ph, buf)).1 =
      (synthesize sr nz c (p, ph, fun _ => 0)).1 := by
  rw [synthesize_split_buffer]

theorem synthesize_phase_indep (sr : ℝ) (nz : ℝ → ℝ) (c : ℕ)
    (p : PartialStruct) (ph : ℝ) (buf : ℕ → ℝ) :
    (synthesize sr nz c (p, ph, buf)).2.1 =
      (synthesize sr nz c (p, ph, fun _ => 0)).2.1 := by
  rw [synthesize_split_buffer]

theorem synthesize_buf_add (sr : ℝ) (nz : ℝ → ℝ) (c : ℕ)
    (p : PartialStruct) (ph : ℝ) (buf : ℕ → ℝ) :
    (synthesize sr nz c (p, ph, buf)).2.2 =
      fun j => buf j + (synthesize sr nz c (p, ph, fun _ => 0)).2.2 j := by
  rw [synthesize_split_buffer]

/-! ## Queue-processing lemmas. -/

theorem getD_set_ne {α : Type _} (l : List α) {a b : ℕ} (h : a ≠ b)
    (v d : α) : (l.set a v).getD b d = l.getD b d := by
  simp [List.getD_eq_getElem?_getD, List.getElem?_set_ne h]

theorem getD_set_self {α : Type _} (l : List α) {a : ℕ} (h : a < l.length)
    (v d : α) : (l.set a v).getD a d = v := by
  simp [List.getD_eq_getElem?_getD, List.getElem?_set_self, h]

/-- The render of a single queue entry within one call: look the snapshot up
in the collection and run the kernel for the clipped sample count. -/
noncomputable def renderOne (sr : ℝ) (nz : ℝ → ℝ) (bound : ℤ)
    (ps : List PartialStruct) (i : ℕ) (ph : ℝ) (buf : ℕ → ℝ) :
    PartialStruct × ℝ × (ℕ → ℝ) :=
  synthesize sr nz (renderCount bound (ps.getD i dfltP))
    (ps.getD i dfltP, ph, buf)

theorem processQueue_nil (sr : ℝ) (nz : ℝ → ℝ) (bound : ℤ)
    (ps : List PartialStruct) (buf : ℕ → ℝ) :
    processQueue sr nz bound [] ps buf = (ps, buf, []) := rfl

theorem processQueue_cons (sr : ℝ) (nz : ℝ → ℝ) (bound : ℤ) (i : ℕ)
    (ph : ℝ) (rest : List (ℕ × ℝ)) (ps : List PartialStruct) (buf : ℕ → ℝ) :
    processQueue sr nz bound ((i, ph) :: rest) ps buf =
      ((processQueue sr nz bound rest
          (ps.set i (renderOne sr nz bound ps i ph buf).1)
          (renderOne sr nz bound ps i ph buf).2.2).1,
       (processQueue sr nz bound rest
          (ps.set i (renderOne sr nz bound ps i ph buf).1)
          (renderOne sr nz bound ps i ph buf).2.2).2.1,
       (if endOff (renderOne sr nz bound ps i ph buf).1 ≤
            posOf (renderOne sr nz bound ps i ph buf).1 then []
        else [(i, (renderOne sr nz bound ps i ph buf).2.1)]) ++
         (processQueue sr nz bound rest
            (ps.set i (renderOne sr nz bound ps i ph buf).1)
            (renderOne sr nz bound ps i ph buf).2.2).2.2) := rfl

theorem renderOne_split (sr : ℝ) (nz : ℝ → ℝ) (bound : ℤ)
    (ps : List PartialStruct) (i : ℕ) (ph : ℝ) (buf : ℕ → ℝ) :
    renderOne sr nz bound ps i ph buf =
      ((renderOne sr nz bound ps i ph (fun _ => 0)).1,
       (renderOne sr nz bound ps i ph (fun _ => 0)).2.1,
       fun j => buf j + (renderOne sr nz bound ps i ph (fun _ => 0)).2.2 j) :=
  synthesize_split_buffer sr nz _ _ _ _

theorem renderOne_set_ne (sr : ℝ) (nz : ℝ → ℝ) (bound : ℤ)
    (ps : List PartialStruct) {i a : ℕ} (h : i ≠ a) (q : PartialStruct)
    (pha : ℝ) (buf : ℕ → ℝ) :
    renderOne sr nz bound (ps.set i q) a pha buf =
      renderOne sr nz bound ps a pha buf := by
  unfold renderOne
  rw [getD_set_ne ps h]

/-- Processing a queue that does not reference snapshot `i` commutes with a
pending update of snapshot `i` and a pending pointwise buffer contribution:
the queue's own behavior is unchanged. -/
theorem processQueue_shift (sr : ℝ) (nz : ℝ → ℝ) (bound : ℤ) :
    ∀ (L : List (ℕ × ℝ)) (ps : List PartialStruct) (buf : ℕ → ℝ)
      (i : ℕ) (q : PartialStruct) (dl : ℕ → ℝ),
      i ∉ L.map Prod.fst →
      processQueue sr nz bound L (ps.set i q) (fun j => buf j + dl j) =
        ((processQueue sr nz bound L ps buf).1.set i q,
         fun j => (processQueue sr nz bound L ps buf).2.1 j + dl j,
         (processQueue sr nz bound L ps buf).2.2) := by
  intro L
  induction L with
  | nil =>
    intro ps buf i q dl _
    rw [processQueue_nil, processQueue_nil]
  | cons e rest ih =>
    obtain ⟨a, pha⟩ := e
    intro ps buf i q dl hi
    simp only [List.map_cons, List.mem_cons, not_or] at hi
    obtain ⟨hia, hirest⟩ := hi
    have hr : renderOne sr nz bound (ps.set i q) a pha (fun j => buf j + dl j) =
        ((renderOne sr nz bound ps a pha buf).1,
         (renderOne sr nz bound ps a pha buf).2.1,
         fun j => (renderOne sr nz bound ps a pha buf).2.2 j + dl j) := by
      rw [renderOne_set_ne sr nz bound ps hia,
          renderOne_split sr nz bound ps a pha (fun j => buf j + dl j),
          renderOne_split sr nz bound ps a pha buf]
      refine Prod.ext rfl (Prod.ext rfl ?_)
      funext j
      dsimp only
      ring
    rw [processQueue_cons, processQueue_cons, hr]
    dsimp only
    rw [List.set_comm q (renderOne sr nz bound ps a pha buf).1 ps hia]
    rw [ih (ps.set a (renderOne sr nz bound ps a pha buf).1)
        (renderOne sr nz bound ps a pha buf).2.2 i q dl hirest]

theorem renderCount_of_complete (bound : ℤ) (p : PartialStruct)
    (h : endOff p ≤ posOf p) : renderCount bound p = 0 := by
  unfold renderCount
  have := min_le_left (endOff p) bound
  omega

theorem toNat_min_split (E b1 b2 pos : ℤ) (h : b1 ≤ b2) :
    (min E b2 - pos).toNat =
      (min E b1 - pos).toNat +
        (min E b2 - (pos + ((min E b1 - pos).toNat : ℤ))).toNat := by
  rw [min_def, min_def]
  split_ifs <;> omega

/-- Window-splitting of the clipped per-call sample count: rendering for the
smaller window bound and then for the larger one covers exactly the samples
of one render against the larger bound. -/
theorem renderCount_split (sr : ℝ) (nz : ℝ → ℝ) {b1 b2 : ℤ} (h : b1 ≤ b2)
    (p : PartialStruct) (ph : ℝ) (buf : ℕ → ℝ) :
    renderCount b2 p =
      renderCount b1 p +
        renderCount b2 (synthesize sr nz (renderCount b1 p) (p, ph, buf)).1 := by
  unfold renderCount
  rw [synthesize_endOff, synthesize_posOf]
  exact toNat_min_split (endOff (p, ph, buf).1) b1 b2 (posOf (p, ph, buf).1) h

theorem set_getD_eq {α : Type _} : ∀ (l : List α) (i : ℕ) (d : α),
    l.set i (l.getD i d) = l
  | [], _, _ => rfl
  | _ :: _, 0, _ => rfl
  | a :: t, i + 1, d => by
    simp only [List.set, List.getD]
    rw [show (a :: t).get? (i + 1) = t.get? i from rfl]
    have := set_getD_eq t i d
    simp only [List.getD] at this
    rw [this]

theorem processQueue_getD_not_mem (sr : ℝ) (nz : ℝ → ℝ) (bound : ℤ) :
    ∀ (L : List (ℕ × ℝ)) (ps : List PartialStruct) (buf : ℕ → ℝ) (i : ℕ),
      i ∉ L.map Prod.fst →
      (processQueue sr nz bound L ps buf).1.getD i dfltP = ps.getD i dfltP := by
  intro L
  induction L with
  | nil => intro ps buf i _; rfl
  | cons e rest ih =>
    obtain ⟨a, pha⟩ := e
    intro ps buf i hi
    simp only [List.map_cons, List.mem_cons, not_or] at hi
    obtain ⟨hia, hirest⟩ := hi
    rw [processQueue_cons]
    dsimp only
    rw [ih _ _ _ hirest, getD_set_ne ps (fun hh => hia hh.symm)]

/-- Splitting the head render across a smaller and a larger window bound:
rendering against `b2` in one go equals rendering against `b1` first and
then rendering the written-back snapshot against `b2`. -/
theorem renderOne_window_split (sr : ℝ) (nz : ℝ → ℝ) {b1 b2 : ℤ}
    (h : b1 ≤ b2) (ps : List PartialStruct) (i : ℕ) (ph : ℝ) (buf : ℕ → ℝ)
    (hi : i < ps.length) :
    renderOne sr nz b2 ps i ph buf =
      renderOne sr nz b2 (ps.set i (renderOne sr nz b1 ps i ph buf).1) i
        (renderOne sr nz b1 ps i ph buf).2.1
        (renderOne sr nz b1 ps i ph buf).2.2 := by
  unfold renderOne
  rw [getD_set_self ps hi]
  rw [renderCount_split sr nz h (ps.getD i dfltP) ph buf]
  rw [synthesize_add]

/-- Buffer-split form of `renderOne_window_split`: the render against the
larger bound decomposes into the smaller-window render followed by the
remainder render over the zero buffer, added pointwise. -/
theorem renderOne_window_split_buf (sr : ℝ) (nz : ℝ → ℝ) {b1 b2 : ℤ}
    (h : b1 ≤ b2) (ps : List PartialStruct) (i : ℕ) (ph : ℝ) (buf : ℕ → ℝ)
    (hi : i < ps.length) :
    renderOne sr nz b2 ps i ph buf =
      ((synthesize sr nz (renderCount b2 (renderOne sr nz b1 ps i ph buf).1)
          ((renderOne sr nz b1 ps i ph buf).1,
           (renderOne sr nz b1 ps i ph buf).2.1, fun _ => 0)).1,
       (synthesize sr nz (renderCount b2 (renderOne sr nz b1 ps i ph buf).1)
          ((renderOne sr nz b1 ps i ph buf).1,
           (renderOne sr nz b1 ps i ph buf).2.1, fun _ => 0)).2.1,
       fun j => (renderOne sr nz b1 ps i ph buf).2.2 j +
         (synthesize sr nz (renderCount b2 (renderOne sr nz b1 ps i ph buf).1)
            ((renderOne sr nz b1 ps i ph buf).1,
             (renderOne sr nz b1 ps i ph buf).2.1, fun _ => 0)).2.2 j) := by
  rw [renderOne_window_split sr nz h ps i ph buf hi]
  have hre : renderOne sr nz b2
      (ps.set i (renderOne sr nz b1 ps i ph buf).1) i
      (renderOne sr nz b1 ps i ph buf).2.1
      (renderOne sr nz b1 ps i ph buf).2.2 =
      synthesize sr nz
        (renderCount b2
          ((ps.set i (renderOne sr nz b1 ps i ph buf).1).getD i dfltP))
        ((ps.set i (renderOne sr nz b1 ps i ph buf).1).getD i dfltP,
         (renderOne sr nz b1 ps i ph buf).2.1,
         (renderOne sr nz b1 ps i ph buf).2.2) := rfl
  rw [hre, getD_set_self ps hi]
  exact synthesize_split_buffer sr nz _ _ _ _

/-- Core window-splitting of the queue-processing pass: processing entries
`M ++ N` against the larger bound `b2` equals first processing `M` against
the smaller bound `b1` and then processing the survivors of `M` followed by
`N` against `b2` — provided `M` references pairwise-distinct valid
snapshots. -/
theorem processQueue_window_split (sr : ℝ) (nz : ℝ → ℝ) {b1 b2 : ℤ}
    (h : b1 ≤ b2) :
    ∀ (M N : List (ℕ × ℝ)) (ps : List PartialStruct) (buf : ℕ → ℝ),
      (M.map Prod.fst).Nodup → (∀ e ∈ M, e.1 < ps.length) →
      processQueue sr nz b2 (M ++ N) ps buf =
        processQueue sr nz b2 ((processQueue sr nz b1 M ps buf).2.2 ++ N)
          (processQueue sr nz b1 M ps buf).1
          (processQueue sr nz b1 M ps buf).2.1 := by
  intro M
  induction M with
  | nil =>
    intro N ps buf _ _
    rw [processQueue_nil]
  | cons e M ih =>
    obtain ⟨i, ph⟩ := e
    intro N ps buf hnd hlen
    simp only [List.map_cons, List.nodup_cons] at hnd
    obtain ⟨hiM, hndM⟩ := hnd
    have hilen : i < ps.length := hlen (i, ph) (by simp)
    have hlenM : ∀ e ∈ M, e.1 < ps.length :=
      fun e he => hlen e (List.mem_cons_of_mem _ he)
    rw [List.cons_append, processQueue_cons, processQueue_cons]
    rw [ih N (ps.set i (renderOne sr nz b2 ps i ph buf).1)
        (renderOne sr nz b2 ps i ph buf).2.2 hndM (by simpa using hlenM)]
    set B := renderOne sr nz b1 ps i ph buf with hB
    set A := renderOne sr nz b2 ps i ph buf with hA0
    set Z := synthesize sr nz (renderCount b2 B.1) (B.1, B.2.1, fun _ => 0)
      with hZ
    set O := processQueue sr nz b1 M (ps.set i B.1) B.2.2 with hO
    have hA : A = (Z.1, Z.2.1, fun j => B.2.2 j + Z.2.2 j) := by
      rw [hA0, hB, hZ]
      exact renderOne_window_split_buf sr nz h ps i ph buf hilen
    rw [hA]
    dsimp only
    rw [show ps.set i Z.1 = (ps.set i B.1).set i Z.1
      from (List.set_set _ _ _ _).symm]
    rw [processQueue_shift sr nz b1 M (ps.set i B.1) B.2.2 i Z.1 Z.2.2 hiM]
    rw [← hO]
    dsimp only
    have hO1 : O.1.getD i dfltP = B.1 := by
      rw [hO, processQueue_getD_not_mem sr nz b1 M _ _ i hiM,
          getD_set_self ps hilen]
    by_cases hc : endOff B.1 ≤ posOf B.1
    · have hZc : Z = (B.1, B.2.1, fun _ => (0 : ℝ)) := by
        rw [hZ, renderCount_of_complete b2 _ hc, synthesize_zero]
      rw [hZc]
      dsimp only
      rw [if_pos hc]
      simp only [List.nil_append, add_zero]
      rw [← hO1, set_getD_eq]
    · rw [if_neg hc]
      rw [show ([(i, B.2.1)] ++ O.2.2) ++ N = (i, B.2.1) :: (O.2.2 ++ N)
        by simp]
      rw [processQueue_cons]
      have hrH : renderOne sr nz b2 O.1 i B.2.1 O.2.1 =
          (Z.1, Z.2.1, fun j => O.2.1 j + Z.2.2 j) := by
        have hre : renderOne sr nz b2 O.1 i B.2.1 O.2.1 =
            synthesize sr nz (renderCount b2 (O.1.getD i dfltP))
              (O.1.getD i dfltP, B.2.1, O.2.1) := rfl
        rw [hre, hO1, hZ]
        exact synthesize_split_buffer sr nz _ _ _ _
      rw [hrH]

theorem getD_set_cases {α : Type _} (l : List α) (a : ℕ) (v d : α) :
    (l.set a v).getD a d = if a < l.length then v else l.getD a d := by
  by_cases h : a < l.length
  · rw [if_pos h, getD_set_self l h]
  · rw [if_neg h, List.set_eq_of_length_le (by omega)]

theorem processQueue_length (sr : ℝ) (nz : ℝ → ℝ) (bound : ℤ) :
    ∀ (L : List (ℕ × ℝ)) (ps : List PartialStruct) (buf : ℕ → ℝ),
      (processQueue sr nz bound L ps buf).1.length = ps.length := by
  intro L
  induction L with
  | nil => intro ps buf; rfl
  | cons e rest ih =>
    obtain ⟨a, pha⟩ := e
    intro ps buf
    rw [processQueue_cons]
    dsimp only
    rw [ih]
    exact List.length_set ..

theorem processQueue_startOff_getD (sr : ℝ) (nz : ℝ → ℝ) (bound : ℤ) :
    ∀ (L : List (ℕ × ℝ)) (ps : List PartialStruct) (buf : ℕ → ℝ) (i : ℕ),
      startOff ((processQueue sr nz bound L ps buf).1.getD i dfltP) =
        startOff (ps.getD i dfltP) := by
  intro L
  induction L with
  | nil => intro ps buf i; rfl
  | cons e rest ih =>
    obtain ⟨a, pha⟩ := e
    intro ps buf i
    rw [processQueue_cons]
    dsimp only
    rw [ih]
    by_cases hai : a = i
    · subst hai
      rw [getD_set_cases]
      by_cases hl : a < ps.length
      · rw [if_pos hl]
        have : startOff (renderOne sr nz bound ps a pha buf).1 =
            startOff (ps.getD a dfltP) := by
          unfold renderOne
          exact synthesize_startOff sr nz _ _
        rw [this]
      · rw [if_neg hl]
    · rw [getD_set_ne ps hai]

/-- One-step unfolding of the admission scan. -/
theorem enqueueNew_eq (ps : List PartialStruct) (bound : ℤ) (idx : ℕ) :
    enqueueNew ps bound idx =
      if idx < ps.length then
        (if startOff (ps.getD idx dfltP) < bound then
          ((enqueueNew ps bound (idx + 1)).1,
            (idx, 0) :: (enqueueNew ps bound (idx + 1)).2)
         else (idx, []))
      else (idx, []) := by
  rw [enqueueNew]
  by_cases h : idx < ps.length
  · rw [dif_pos h, if_pos h]
  · rw [dif_neg h, if_neg h]

theorem enqueueNew_split_aux (ps : List PartialStruct) {b1 b2 : ℤ}
    (h : b1 ≤ b2) :
    ∀ (n idx : ℕ), ps.length - idx ≤ n →
      enqueueNew ps b2 idx =
        ((enqueueNew ps b2 (enqueueNew ps b1 idx).1).1,
         (enqueueNew ps b1 idx).2 ++
           (enqueueNew ps b2 (enqueueNew ps b1 idx).1).2) := by
  intro n
  induction n with
  | zero =>
    intro idx hle
    have hnot : ¬ idx < ps.length := by omega
    rw [enqueueNew_eq ps b1 idx, if_neg hnot]
    dsimp only
    rw [List.nil_append]
  | succ n ihn =>
    intro idx hle
    by_cases hidx : idx < ps.length
    · by_cases hst : startOff (ps.getD idx dfltP) < b1
      · have hst2 : startOff (ps.getD idx dfltP) < b2 := lt_of_lt_of_le hst h
        rw [enqueueNew_eq ps b2 idx, if_pos hidx, if_pos hst2,
            enqueueNew_eq ps b1 idx, if_pos hidx, if_pos hst]
        dsimp only
        rw [ihn (idx + 1) (by omega), List.cons_append]
      · rw [enqueueNew_eq ps b1 idx, if_pos hidx, if_neg hst]
        dsimp only
        rw [List.nil_append]
    · rw [enqueueNew_eq ps b1 idx, if_neg hidx]
      dsimp only
      rw [List.nil_append]

/-- Composition of the admission scan across two window bounds: scanning up
to the larger bound admits first the partials admitted by the smaller bound,
then (continuing from the advanced index) the rest. -/
theorem enqueueNew_split (ps : List PartialStruct) {b1 b2 : ℤ} (h : b1 ≤ b2)
    (idx : ℕ) :
    enqueueNew ps b2 idx =
      ((enqueueNew ps b2 (enqueueNew ps b1 idx).1).1,
       (enqueueNew ps b1 idx).2 ++
         (enqueueNew ps b2 (enqueueNew ps b1 idx).1).2) :=
  enqueueNew_split_aux ps h ps.length idx (by omega)

theorem enqueueNew_entries_aux (ps : List PartialStruct) (bound : ℤ) :
    ∀ (n idx : ℕ), ps.length - idx ≤ n →
      (∀ e ∈ (enqueueNew ps bound idx).2, idx ≤ e.1 ∧ e.1 < ps.length) ∧
        ((enqueueNew ps bound idx).2.map Prod.fst).Nodup ∧
        idx ≤ (enqueueNew ps bound idx).1 ∧
        (idx ≤ ps.length → (enqueueNew ps bound idx).1 ≤ ps.length) := by
  intro n
  induction n with
  | zero =>
    intro idx hle
    have hnot : ¬ idx < ps.length := by omega
    rw [enqueueNew_eq ps bound idx, if_neg hnot]
    refine ⟨by simp, by simp, le_refl idx, fun hh => hh⟩
  | succ n ihn =>
    intro idx hle
    by_cases hidx : idx < ps.length
    · by_cases hst : startOff (ps.getD idx dfltP) < bound
      · rw [enqueueNew_eq ps bound idx, if_pos hidx, if_pos hst]
        obtain ⟨he, hnd, hge, hl⟩ := ihn (idx + 1) (by omega)
        dsimp only
        refine ⟨?_, ?_, by omega, fun _ => hl (by omega)⟩
        · intro e hmem
          rcases List.mem_cons.mp hmem with rfl | hmem
          · exact ⟨le_refl idx, hidx⟩
          · have := he e hmem
            exact ⟨by omega, this.2⟩
        · rw [List.map_cons]
          refine List.nodup_cons.mpr ⟨?_, hnd⟩
          intro hmem
          obtain ⟨e, hmem2, heq⟩ := List.mem_map.mp hmem
          have := (he e hmem2).1
          omega
      · rw [enqueueNew_eq ps bound idx, if_pos hidx, if_neg hst]
        exact ⟨by simp, by simp, le_refl idx, fun hh => hh⟩
    · rw [enqueueNew_eq ps bound idx, if_neg hidx]
      exact ⟨by simp, by simp, le_refl idx, fun hh => hh⟩

theorem enqueueNew_entries (ps : List PartialStruct) (bound : ℤ) (idx : ℕ) :
    (∀ e ∈ (enqueueNew ps bound idx).2, idx ≤ e.1 ∧ e.1 < ps.length) ∧
      ((enqueueNew ps bound idx).2.map Prod.fst).Nodup ∧
      idx ≤ (enqueueNew ps bound idx).1 ∧
      (idx ≤ ps.length → (enqueueNew ps bound idx).1 ≤ ps.length) :=
  enqueueNew_entries_aux ps bound ps.length idx (by omega)

theorem enqueueNew_congr_aux (ps qs : List PartialStruct)
    (hlen : qs.length = ps.length)
    (hso : ∀ i, startOff (qs.getD i dfltP) = startOff (ps.getD i dfltP))
    (bound : ℤ) :
    ∀ (n idx : ℕ), ps.length - idx ≤ n →
      enqueueNew qs bound idx = enqueueNew ps bound idx := by
  intro n
  induction n with
  | zero =>
    intro idx hle
    have hnot : ¬ idx < ps.length := by omega
    rw [enqueueNew_eq ps bound idx, if_neg hnot,
        enqueueNew_eq qs bound idx, if_neg (by omega)]
  | succ n ihn =>
    intro idx hle
    by_cases hidx : idx < ps.length
    · rw [enqueueNew_eq ps bound idx, if_pos hidx,
          enqueueNew_eq qs bound idx, if_pos (by omega), hso idx]
      by_cases hst : startOff (ps.getD idx dfltP) < bound
      · rw [if_pos hst, if_pos hst, ihn (idx + 1) (by omega)]
      · rw [if_neg hst, if_neg hst]
    · rw [enqueueNew_eq ps bound idx, if_neg hidx,
          enqueueNew_eq qs bound idx, if_neg (by omega)]

/-- The admission scan depends only on the snapshots' start offsets, which
queue processing preserves. -/
theorem enqueueNew_congr (ps qs : List PartialStruct)
    (hlen : qs.length = ps.length)
    (hso : ∀ i, startOff (qs.getD i dfltP) = startOff (ps.getD i dfltP))
    (bound : ℤ) (idx : ℕ) :
    enqueueNew qs bound idx = enqueueNew ps bound idx :=
  enqueueNew_congr_aux ps qs hlen hso bound ps.length idx (by omega)

theorem synthesizeNext_eq (n : ℕ) (s : RealTimeSynthesizer) :
    synthesizeNext n s =
      { s with
        partials := (processQueue s.srateHz s.noise
          ((s.processedSamples : ℤ) + n)
          (s.partialsBeingProcessed ++
            (enqueueNew s.partials ((s.processedSamples : ℤ) + n)
              s.partialIdx).2) s.partials s.buffer).1,
        buffer := (processQueue s.srateHz s.noise
          ((s.processedSamples : ℤ) + n)
          (s.partialsBeingProcessed ++
            (enqueueNew s.partials ((s.processedSamples : ℤ) + n)
              s.partialIdx).2) s.partials s.buffer).2.1,
        partialsBeingProcessed := (processQueue s.srateHz s.noise
          ((s.processedSamples : ℤ) + n)
          (s.partialsBeingProcessed ++
            (enqueueNew s.partials ((s.processedSamples : ℤ) + n)
              s.partialIdx).2) s.partials s.buffer).2.2,
        partialIdx := (enqueueNew s.partials
          ((s.processedSamples : ℤ) + n) s.partialIdx).1,
        processedSamples := s.processedSamples + n } := rfl

/-- Claim C2: block-size independence of the incremental synthesis — for all
non-negative block sizes `a` and `b`, calling `synthesizeNext a` and then
`synthesizeNext b` leaves the engine (its output buffer, snapshot
collection, queue, admission index and sample clock) in exactly the state
one call `synthesizeNext (a + b)` produces, given the queue well-formedness
the engine maintains.  The model computes with exact reals, so agreement is
exact rather than within floating-point tolerance. -/
theorem synthesizeNext_block_independent (a b : ℕ) (s : RealTimeSynthesizer)
    (hwf : WFEngine s) :
    synthesizeNext b (synthesizeNext a s) = synthesizeNext (a + b) s := by
  obtain ⟨hnd, hidxlt, hidxle⟩ := hwf
  rw [synthesizeNext_eq, synthesizeNext_eq, synthesizeNext_eq]
  dsimp only
  have hcast : ((s.processedSamples + a : ℕ) : ℤ) + (b : ℤ) =
      (s.processedSamples : ℤ) + ((a + b : ℕ) : ℤ) := by push_cast; ring
  rw [hcast]
  have hb1le : (s.processedSamples : ℤ) + (a : ℤ) ≤
      (s.processedSamples : ℤ) + ((a + b : ℕ) : ℤ) := by push_cast; omega
  have hadm := enqueueNew_entries s.partials
    ((s.processedSamples : ℤ) + (a : ℤ)) s.partialIdx
  have hM_nodup : ((s.partialsBeingProcessed ++
      (enqueueNew s.partials ((s.processedSamples : ℤ) + (a : ℤ))
        s.partialIdx).2).map Prod.fst).Nodup := by
    rw [List.map_append]
    refine List.Nodup.append hnd hadm.2.1 ?_
    intro x hx1 hx2
    obtain ⟨e, he, rfl⟩ := List.mem_map.mp hx1
    obtain ⟨f, hf, hef⟩ := List.mem_map.mp hx2
    have h1 := hidxlt e he
    have h2 := (hadm.1 f hf).1
    omega
  have hM_len : ∀ e ∈ s.partialsBeingProcessed ++
      (enqueueNew s.partials ((s.processedSamples : ℤ) + (a : ℤ))
        s.partialIdx).2, e.1 < s.partials.length := by
    intro e he
    rcases List.mem_append.mp he with he | he
    · exact lt_of_lt_of_le (hidxlt e he) hidxle
    · exact (hadm.1 e he).2
  have hcongr : enqueueNew (processQueue s.srateHz s.noise
      ((s.processedSamples : ℤ) + (a : ℤ))
      (s.partialsBeingProcessed ++
        (enqueueNew s.partials ((s.processedSamples : ℤ) + (a : ℤ))
          s.partialIdx).2) s.partials s.buffer).1
      ((s.processedSamples : ℤ) + ((a + b : ℕ) : ℤ))
      (enqueueNew s.partials ((s.processedSamples : ℤ) + (a : ℤ))
        s.partialIdx).1 =
      enqueueNew s.partials ((s.processedSamples : ℤ) + ((a + b : ℕ) : ℤ))
        (enqueueNew s.partials ((s.processedSamples : ℤ) + (a : ℤ))
          s.partialIdx).1 :=
    enqueueNew_congr s.partials _
      (processQueue_length s.srateHz s.noise _ _ s.partials s.buffer)
      (fun i => processQueue_startOff_getD s.srateHz s.noise _ _
        s.partials s.buffer i)
      ((s.processedSamples : ℤ) + ((a + b : ℕ) : ℤ)) _
  rw [hcongr]
  rw [enqueueNew_split s.partials hb1le s.partialIdx]
  dsimp only
  rw [← List.append_assoc]
  rw [processQueue_window_split s.srateHz s.noise hb1le _ _
      s.partials s.buffer hM_nodup hM_len]
  rw [Nat.add_assoc]

/-- Claim C3: the per-partial kernel accumulates additively — one kernel
step writes its sample value by `+=` into the buffer at the absolute offset
`posOf p` (every other cell is untouched), and a whole window render leaves
the incoming buffer contents in place, adding the partial's own
contribution pointwise, so several partials' contributions to the same
sample sum. -/
theorem synthesize_accumulates (sr : ℝ) (nz : ℝ → ℝ) (p : PartialStruct)
    (ph : ℝ) (buf : ℕ → ℝ) (c : ℕ) :
    ((synthesize sr nz 1 (p, ph, buf)).2.2 =
      fun (j : ℕ) => if (j : ℤ) = posOf p then
        buf j + sampleValue sr nz p ph else buf j) ∧
    (synthesize sr nz c (p, ph, buf)).2.2 =
      fun j => buf j + (synthesize sr nz c (p, ph, fun _ => 0)).2.2 j := by
  constructor
  · rfl
  · exact synthesize_buf_add sr nz c p ph buf

/-- Claim C6: the per-sample Nyquist amplitude gate — whenever the
interpolated instantaneous frequency of a partial's current sample reaches
`Fs/2`, the kernel emits exactly zero for that sample (no failure: the step
is total and still advances the progress counter), and whenever the
frequency is below the limit the kernel emits the normal
bandwidth-enhanced value, so the partial resumes contributing as soon as
its frequency drops below the limit. -/
theorem nyquist_gate (sr : ℝ) (nz : ℝ → ℝ) (p : PartialStruct) (ph : ℝ) :
    (sr / 2 ≤ instFreq p → (synthesizeSample sr nz p ph).2.2 = 0) ∧
    (instFreq p < sr / 2 →
      (synthesizeSample sr nz p ph).2.2 =
        instAmp p * (Real.sqrt (1 - instBw p) *
            Real.cos (samplePhase sr p ph) +
          Real.sqrt (instBw p) * nz (samplePhase sr p ph))) ∧
    (synthesizeSample sr nz p ph).1.state.currentSamp =
      p.state.currentSamp + 1 := by
  refine ⟨?_, ?_, rfl⟩
  · intro h
    show sampleValue sr nz p ph = 0
    unfold sampleValue
    rw [if_pos h, zero_mul]
  · intro h
    show sampleValue sr nz p ph = _
    unfold sampleValue
    rw [if_neg (not_le.mpr h)]

/-- Breakpoint used by concrete evaluation witnesses. -/
def bpW : Breakpoint := ⟨10, 1, 0, 0⟩

/-- A concrete snapshot whose instantaneous frequency (10 Hz) lies above the
Nyquist limit of a 4 Hz sample rate. -/
def pW6 : PartialStruct :=
  { duration := 1, startTime := 0, endTime := 1, numBreakpoints := 2,
    breakpoints := [(0, bpW), (4, bpW)],
    state := { currentSamp := 0, lastBreakpoint := 0, prevFrequency := 0 } }

theorem nyquist_gate_witness :
    (4 : ℝ) / 2 ≤ instFreq pW6 ∧
      (synthesizeSample 4 (fun _ => 0) pW6 0).2.2 = 0 := by
  have hfreq : (4 : ℝ) / 2 ≤ instFreq pW6 := by
    have : instFreq pW6 = 10 := by
      show (interpAt pW6.breakpoints (curCursor pW6) (posOf pW6)).1 = 10
      have hpos : posOf pW6 = 0 := by
        simp [posOf, startOff, bpAt, pW6]
      have hcur : curCursor pW6 = 0 := by
        simp [curCursor, hpos, pW6, NoBreakpointProcessed, advanceCursor]
      rw [hpos, hcur]
      simp [interpAt, bpAt, pW6, bpW]
    rw [this]
    norm_num
  exact ⟨hfreq, (nyquist_gate 4 (fun _ => 0) pW6 0).1 hfreq⟩

/-- Claim C7: validating construction — a non-positive sample rate or a
negative fade time makes construction fail with `InvalidArgument` (fatal:
no engine value is produced), while a positive sample rate together with a
non-negative fade time constructs the default-empty engine with the given
configuration. -/
theorem mkRealTimeSynthesizer_validates (srate fadeTime : ℝ)
    (buffer : ℕ → ℝ) (noiseR : ℝ → ℝ) :
    ((srate ≤ 0 ∨ fadeTime < 0) →
      mkRealTimeSynthesizer srate fadeTime buffer noiseR =
        .error .InvalidArgument) ∧
    (0 < srate → 0 ≤ fadeTime →
      mkRealTimeSynthesizer srate fadeTime buffer noiseR =
        .ok { srateHz := srate, fadeTimeSec := fadeTime,
              OneOverSrate := 1 / srate, noise := noiseR, partials := [],
              partialIdx := 0, processedSamples := 0,
              partialsBeingProcessed := [], buffer := buffer }) := by
  constructor
  · rintro (h | h)
    · unfold mkRealTimeSynthesizer
      rw [if_pos h]
    · unfold mkRealTimeSynthesizer
      by_cases h2 : srate ≤ 0
      · rw [if_pos h2]
      · rw [if_neg h2, if_pos h]
  · intro h1 h2
    unfold mkRealTimeSynthesizer
    rw [if_neg (not_le.mpr h1), if_neg (not_lt.mpr h2)]

theorem mkRealTimeSynthesizer_validates_witness :
    mkRealTimeSynthesizer (-1) 1 (fun _ => 0) (fun _ => 0) =
      .error .InvalidArgument ∧
    mkRealTimeSynthesizer 44100 (1 / 100) (fun _ => 0) (fun _ => 0) =
      .ok { srateHz := 44100, fadeTimeSec := 1 / 100,
            OneOverSrate := 1 / 44100, noise := fun _ => 0, partials := [],
            partialIdx := 0, processedSamples := 0,
            partialsBeingProcessed := [], buffer := fun _ => 0 } :=
  ⟨(mkRealTimeSynthesizer_validates (-1) 1 (fun _ => 0) (fun _ => 0)).1
      (Or.inl (by norm_num)),
   (mkRealTimeSynthesizer_validates 44100 (1 / 100) (fun _ => 0)
      (fun _ => 0)).2 (by norm_num) (by norm_num)⟩

theorem getD_map_scaleFreq (c : ℝ) (l : List PartialStruct) (i : ℕ) :
    (l.map (scaleFreq c)).getD i dfltP =
      if i < l.length then scaleFreq c (l.getD i dfltP) else dfltP := by
  by_cases h : i < l.length
  · rw [if_pos h]
    simp [List.getD_eq_getElem?_getD, List.getElem?_map,
      List.getElem?_eq_getElem h]
  · rw [if_neg h]
    simp [List.getD_eq_getElem?_getD, List.getElem?_map,
      List.getElem?_eq_none (show l.length ≤ i by omega)]

theorem bpAt_scaleBp_fst (c : ℝ) (bps : List (ℤ × Breakpoint)) (k : ℕ) :
    (bpAt (bps.map (scaleBp c)) k).1 = (bpAt bps k).1 := by
  cases h : bps[k]? <;>
    simp [bpAt, List.getD_eq_getElem?_getD, List.getElem?_map, h, scaleBp]

theorem bpAt_scaleBp_freq (c : ℝ) (bps : List (ℤ × Breakpoint)) (k : ℕ) :
    (bpAt (bps.map (scaleBp c)) k).2.frequency =
      c * (bpAt bps k).2.frequency := by
  cases h : bps[k]?
  · simp only [bpAt, List.getD_eq_getElem?_getD, List.getElem?_map, h]
    show (0 : ℝ) = c * 0
    rw [mul_zero]
  · simp [bpAt, List.getD_eq_getElem?_getD, List.getElem?_map, h, scaleBp]

theorem bpAt_scaleBp_amp (c : ℝ) (bps : List (ℤ × Breakpoint)) (k : ℕ) :
    (bpAt (bps.map (scaleBp c)) k).2.amplitude =
      (bpAt bps k).2.amplitude := by
  cases h : bps[k]? <;>
    simp [bpAt, List.getD_eq_getElem?_getD, List.getElem?_map, h, scaleBp]

theorem bpAt_scaleBp_bw (c : ℝ) (bps : List (ℤ × Breakpoint)) (k : ℕ) :
    (bpAt (bps.map (scaleBp c)) k).2.bandwidth =
      (bpAt bps k).2.bandwidth := by
  cases h : bps[k]? <;>
    simp [bpAt, List.getD_eq_getElem?_getD, List.getElem?_map, h, scaleBp]

theorem bpAt_scaleBp_phase (c : ℝ) (bps : List (ℤ × Breakpoint)) (k : ℕ) :
    (bpAt (bps.map (scaleBp c)) k).2.phase = (bpAt bps k).2.phase := by
  cases h : bps[k]? <;>
    simp [bpAt, List.getD_eq_getElem?_getD, List.getElem?_map, h, scaleBp]

/-- Claim C9: `prepareForNote freqScale` multiplies every stored breakpoint
frequency of every loaded partial by `freqScale` and changes nothing else:
the engine's configuration, sample clock, admission index, queue and buffer
are untouched, and every snapshot keeps its progress state, derived times,
breakpoint count, offsets, amplitudes, bandwidths and phases. -/
theorem prepareForNote_scales_freq_only (c : ℝ) (s : RealTimeSynthesizer) :
    (prepareForNote c s).srateHz = s.srateHz ∧
    (prepareForNote c s).fadeTimeSec = s.fadeTimeSec ∧
    (prepareForNote c s).processedSamples = s.processedSamples ∧
    (prepareForNote c s).partialIdx = s.partialIdx ∧
    (prepareForNote c s).partialsBeingProcessed =
      s.partialsBeingProcessed ∧
    (prepareForNote c s).buffer = s.buffer ∧
    (prepareForNote c s).partials.length = s.partials.length ∧
    ∀ i : ℕ,
      ((prepareForNote c s).partials.getD i dfltP).state =
        (s.partials.getD i dfltP).state ∧
      ((prepareForNote c s).partials.getD i dfltP).startTime =
        (s.partials.getD i dfltP).startTime ∧
      ((prepareForNote c s).partials.getD i dfltP).endTime =
        (s.partials.getD i dfltP).endTime ∧
      ((prepareForNote c s).partials.getD i dfltP).duration =
        (s.partials.getD i dfltP).duration ∧
      ((prepareForNote c s).partials.getD i dfltP).numBreakpoints =
        (s.partials.getD i dfltP).numBreakpoints ∧
      ((prepareForNote c s).partials.getD i dfltP).breakpoints.length =
        (s.partials.getD i dfltP).breakpoints.length ∧
      ∀ k : ℕ,
        (bpAt ((prepareForNote c s).partials.getD i dfltP).breakpoints
            k).1 = (bpAt (s.partials.getD i dfltP).breakpoints k).1 ∧
        (bpAt ((prepareForNote c s).partials.getD i dfltP).breakpoints
            k).2.amplitude =
          (bpAt (s.partials.getD i dfltP).breakpoints k).2.amplitude ∧
        (bpAt ((prepareForNote c s).partials.getD i dfltP).breakpoints
            k).2.bandwidth =
          (bpAt (s.partials.getD i dfltP).breakpoints k).2.bandwidth ∧
        (bpAt ((prepareForNote c s).partials.getD i dfltP).breakpoints
            k).2.phase =
          (bpAt (s.partials.getD i dfltP).breakpoints k).2.phase ∧
        (bpAt ((prepareForNote c s).partials.getD i dfltP).breakpoints
            k).2.frequency =
          c * (bpAt (s.partials.getD i dfltP).breakpoints k).2.frequency := by
  have hpp : (prepareForNote c s).partials =
      s.partials.map (scaleFreq c) := rfl
  refine ⟨rfl, rfl, rfl, rfl, rfl, rfl, by rw [hpp]; simp, fun i => ?_⟩
  rw [hpp, getD_map_scaleFreq c s.partials i]
  by_cases h : i < s.partials.length
  · rw [if_pos h]
    have hbk : (scaleFreq c (s.partials.getD i dfltP)).breakpoints =
        (s.partials.getD i dfltP).breakpoints.map (scaleBp c) := rfl
    rw [hbk]
    refine ⟨rfl, rfl, rfl, rfl, rfl, by simp, fun k => ?_⟩
    exact ⟨bpAt_scaleBp_fst c _ k, bpAt_scaleBp_amp c _ k,
      bpAt_scaleBp_bw c _ k, bpAt_scaleBp_phase c _ k,
      bpAt_scaleBp_freq c _ k⟩
  · rw [if_neg h, List.getD_eq_default s.partials dfltP (by omega)]
    refine ⟨rfl, rfl, rfl, rfl, rfl, rfl, fun k => ⟨rfl, rfl, rfl, rfl, ?_⟩⟩
    rw [show (bpAt dfltP.breakpoints k).2.frequency = (0 : ℝ) from rfl,
      mul_zero]

theorem renderOne_fst_currentSamp (sr : ℝ) (nz : ℝ → ℝ) (bound : ℤ)
    (ps : List PartialStruct) (i : ℕ) (ph : ℝ) (buf : ℕ → ℝ) :
    (renderOne sr nz bound ps i ph buf).1.state.currentSamp =
      (ps.getD i dfltP).state.currentSamp +
        renderCount bound (ps.getD i dfltP) := by
  unfold renderOne
  exact synthesize_currentSamp sr nz _ _

theorem processQueue_currentSamp_mono (sr : ℝ) (nz : ℝ → ℝ) (bound : ℤ) :
    ∀ (L : List (ℕ × ℝ)) (ps : List PartialStruct) (buf : ℕ → ℝ) (i : ℕ),
      (ps.getD i dfltP).state.currentSamp ≤
        ((processQueue sr nz bound L ps buf).1.getD i dfltP
          ).state.currentSamp := by
  intro L
  induction L with
  | nil => intro ps buf i; exact le_refl _
  | cons e rest ih =>
    obtain ⟨a, pha⟩ := e
    intro ps buf i
    rw [processQueue_cons]
    dsimp only
    refine le_trans ?_ (ih _ _ i)
    by_cases hai : a = i
    · subst hai
      rw [getD_set_cases]
      by_cases hl : a < ps.length
      · rw [if_pos hl, renderOne_fst_currentSamp]
        omega
      · rw [if_neg hl]
    · rw [getD_set_ne ps hai]

theorem processQueue_getD_complete (sr : ℝ) (nz : ℝ → ℝ) (bound : ℤ) :
    ∀ (L : List (ℕ × ℝ)) (ps : List PartialStruct) (buf : ℕ → ℝ) (i : ℕ),
      endOff (ps.getD i dfltP) ≤ posOf (ps.getD i dfltP) →
      (processQueue sr nz bound L ps buf).1.getD i dfltP =
        ps.getD i dfltP := by
  intro L
  induction L with
  | nil => intro ps buf i _; rfl
  | cons e rest ih =>
    obtain ⟨a, pha⟩ := e
    intro ps buf i hc
    rw [processQueue_cons]
    dsimp only
    by_cases hai : a = i
    · subst hai
      have hr : renderOne sr nz bound ps a pha buf =
          (ps.getD a dfltP, pha, buf) := by
        unfold renderOne
        rw [renderCount_of_complete bound _ hc, synthesize_zero]
      rw [hr]
      dsimp only
      rw [set_getD_eq]
      exact ih ps buf a hc
    · have hps : (ps.set a (renderOne sr nz bound ps a pha buf).1).getD i
          dfltP = ps.getD i dfltP := getD_set_ne ps hai _ _
      rw [ih _ _ i (by rw [hps]; exact hc), hps]

theorem synthesizeNext_currentSamp_mono (n : ℕ) (s : RealTimeSynthesizer)
    (i : ℕ) :
    (s.partials.getD i dfltP).state.currentSamp ≤
      ((synthesizeNext n s).partials.getD i dfltP).state.currentSamp := by
  rw [synthesizeNext_eq]
  dsimp only
  exact processQueue_currentSamp_mono s.srateHz s.noise _ _
    s.partials s.buffer i

theorem synthesizeNext_getD_complete (n : ℕ) (s : RealTimeSynthesizer)
    (i : ℕ)
    (hc : endOff (s.partials.getD i dfltP) ≤ posOf (s.partials.getD i dfltP)) :
    (synthesizeNext n s).partials.getD i dfltP = s.partials.getD i dfltP := by
  rw [synthesizeNext_eq]
  dsimp only
  exact processQueue_getD_complete s.srateHz s.noise _ _
    s.partials s.buffer i hc

theorem getD_map_scaleFreq_state (c : ℝ) (l : List PartialStruct) (i : ℕ) :
    ((l.map (scaleFreq c)).getD i dfltP).state = (l.getD i dfltP).state := by
  rw [getD_map_scaleFreq]
  by_cases h : i < l.length
  · rw [if_pos h]
    rfl
  · rw [if_neg h, List.getD_eq_default l dfltP (by omega)]

theorem getD_map_scaleFreq_endOff (c : ℝ) (l : List PartialStruct) (i : ℕ) :
    endOff ((l.map (scaleFreq c)).getD i dfltP) = endOff (l.getD i dfltP) := by
  rw [getD_map_scaleFreq]
  by_cases h : i < l.length
  · rw [if_pos h]
    unfold endOff
    rw [show (scaleFreq c (l.getD i dfltP)).breakpoints =
      (l.getD i dfltP).breakpoints.map (scaleBp c) from rfl]
    rw [List.length_map, bpAt_scaleBp_fst]
  · rw [if_neg h, List.getD_eq_default l dfltP (by omega)]

theorem getD_map_scaleFreq_posOf (c : ℝ) (l : List PartialStruct) (i : ℕ) :
    posOf ((l.map (scaleFreq c)).getD i dfltP) = posOf (l.getD i dfltP) := by
  rw [getD_map_scaleFreq]
  by_cases h : i < l.length
  · rw [if_pos h]
    unfold posOf startOff
    rw [show (scaleFreq c (l.getD i dfltP)).breakpoints =
      (l.getD i dfltP).breakpoints.map (scaleBp c) from rfl]
    rw [bpAt_scaleBp_fst]
    rfl
  · rw [if_neg h, List.getD_eq_default l dfltP (by omega)]

/-- Claim C8: across every sequence of streaming engine operations
(`synthesizeNext` blocks and `prepareForNote` rescales, i.e. everything
between `setup` calls), every snapshot's progress counter `currentSamp`
never decreases, and once a snapshot is complete (its render position has
reached its total rendered length, `endOff ≤ posOf`) no operation changes
its progress state (`currentSamp`, `lastBreakpoint`, `prevFrequency`)
again. -/
theorem currentSamp_monotone_complete_frozen (ops : List EngineOp) :
    ∀ (s : RealTimeSynthesizer) (i : ℕ),
      (s.partials.getD i dfltP).state.currentSamp ≤
        ((runOps ops s).partials.getD i dfltP).state.currentSamp ∧
      (endOff (s.partials.getD i dfltP) ≤ posOf (s.partials.getD i dfltP) →
        ((runOps ops s).partials.getD i dfltP).state =
          (s.partials.getD i dfltP).state) := by
  induction ops with
  | nil => intro s i; exact ⟨le_refl _, fun _ => rfl⟩
  | cons op rest ih =>
    intro s i
    cases op with
    | synth n =>
      have hrun : runOps (EngineOp.synth n :: rest) s =
          runOps rest (synthesizeNext n s) := rfl
      rw [hrun]
      obtain ⟨m2, f2⟩ := ih (synthesizeNext n s) i
      refine ⟨le_trans (synthesizeNext_currentSamp_mono n s i) m2, ?_⟩
      intro hc
      have hfull := synthesizeNext_getD_complete n s i hc
      rw [f2 (by rw [hfull]; exact hc), hfull]
    | note cc =>
      have hrun : runOps (EngineOp.note cc :: rest) s =
          runOps rest (prepareForNote cc s) := rfl
      rw [hrun]
      obtain ⟨m2, f2⟩ := ih (prepareForNote cc s) i
      have hpp : (prepareForNote cc s).partials =
          s.partials.map (scaleFreq cc) := rfl
      have hst : ((prepareForNote cc s).partials.getD i dfltP).state =
          (s.partials.getD i dfltP).state := by
        rw [hpp]
        exact getD_map_scaleFreq_state cc s.partials i
      refine ⟨?_, ?_⟩
      · have hcs : ((prepareForNote cc s).partials.getD i dfltP
            ).state.currentSamp = (s.partials.getD i dfltP
            ).state.currentSamp := by rw [hst]
        omega
      · intro hc
        have hcprep : endOff ((prepareForNote cc s).partials.getD i dfltP) ≤
            posOf ((prepareForNote cc s).partials.getD i dfltP) := by
          rw [hpp, getD_map_scaleFreq_endOff, getD_map_scaleFreq_posOf]
          exact hc
        rw [f2 hcprep, hst]

/-- A concrete completed snapshot: one breakpoint at offset 0, progress
counter already at the total rendered length 1. -/
def pW8 : PartialStruct :=
  { duration := 0, startTime := 0, endTime := 0, numBreakpoints := 1,
    breakpoints := [(0, bpW)],
    state := { currentSamp := 1, lastBreakpoint := 1, prevFrequency := 10 } }

/-- A concrete engine holding the completed snapshot `pW8`. -/
noncomputable def sW8 : RealTimeSynthesizer :=
  { srateHz := 10, fadeTimeSec := 1, OneOverSrate := 1 / 10,
    noise := fun _ => 0, partials := [pW8], partialIdx := 1,
    processedSamples := 1, partialsBeingProcessed := [], buffer := fun _ => 0 }

theorem currentSamp_monotone_complete_frozen_witness :
    endOff (sW8.partials.getD 0 dfltP) ≤ posOf (sW8.partials.getD 0 dfltP) ∧
      ((runOps [EngineOp.synth 1] sW8).partials.getD 0 dfltP).state =
        (sW8.partials.getD 0 dfltP).state := by
  have hc : endOff (sW8.partials.getD 0 dfltP) ≤
      posOf (sW8.partials.getD 0 dfltP) := by
    simp [sW8, pW8, endOff, posOf, startOff, bpAt]
  exact ⟨hc, (currentSamp_monotone_complete_frozen [EngineOp.synth 1]
    sW8 0).2 hc⟩

/-- Ordering of snapshots by start time. -/
def startLE (p q : PartialStruct) : Prop := p.startTime ≤ q.startTime

theorem insertByStart_perm (p : PartialStruct) :
    ∀ l, List.Perm (insertByStart p l) (p :: l) := by
  intro l
  induction l with
  | nil => exact List.Perm.refl _
  | cons q t ih =>
    by_cases h : p.startTime ≤ q.startTime
    · simp only [insertByStart, if_pos h]
      exact List.Perm.refl _
    · simp only [insertByStart, if_neg h]
      exact (ih.cons q).trans (List.Perm.swap p q t)

theorem sortByStart_perm : ∀ l, List.Perm (sortByStart l) l := by
  intro l
  induction l with
  | nil => exact List.Perm.refl _
  | cons p t ih =>
    exact (insertByStart_perm p (sortByStart t)).trans (ih.cons p)

theorem insertByStart_pairwise (p : PartialStruct) :
    ∀ l, l.Pairwise startLE → (insertByStart p l).Pairwise startLE := by
  intro l
  induction l with
  | nil => intro _; simp [insertByStart, List.pairwise_singleton]
  | cons q t ih =>
    intro hl
    rw [List.pairwise_cons] at hl
    by_cases h : p.startTime ≤ q.startTime
    · simp only [insertByStart, if_pos h]
      rw [List.pairwise_cons]
      constructor
      · intro x hx
        rcases List.mem_cons.mp hx with rfl | hx
        · exact h
        · exact le_trans h (hl.1 x hx)
      · rw [List.pairwise_cons]
        exact hl
    · simp only [insertByStart, if_neg h]
      rw [List.pairwise_cons]
      constructor
      · intro x hx
        have hmem := (insertByStart_perm p t).mem_iff.mp hx
        rcases List.mem_cons.mp hmem with rfl | hx2
        · exact le_of_not_le h
        · exact hl.1 x hx2
      · exact ih hl.2

theorem sortByStart_pairwise :
    ∀ l, (sortByStart l).Pairwise startLE := by
  intro l
  induction l with
  | nil => exact List.Pairwise.nil
  | cons p t ih => exact insertByStart_pairwise p (sortByStart t) ih

/-- Claim C5: after every `setup` call — from any prior engine state — the
processing queue is empty, the sample clock `processedSamples` is 0, the
snapshot collection is rebuilt from exactly the supplied raw partials (each
normalized by the construction contract `normalizeP`, reordered by start
time), and the next-partial-to-admit index (0) points at an
earliest-starting snapshot. -/
theorem setup_resets (raw : List (List (ℝ × Breakpoint)))
    (s : RealTimeSynthesizer) :
    (setup raw s).partialsBeingProcessed = [] ∧
      (setup raw s).processedSamples = 0 ∧
      (setup raw s).partialIdx = 0 ∧
      List.Perm (setup raw s).partials
        (raw.map (normalizeP s.srateHz s.fadeTimeSec)) ∧
      ∀ q, (setup raw s).partials.head? = some q →
        ∀ p ∈ (setup raw s).partials, q.startTime ≤ p.startTime := by
  refine ⟨rfl, rfl, rfl, sortByStart_perm _, ?_⟩
  intro q hq p hp
  have hpw2 : ((setup raw s).partials).Pairwise startLE :=
    sortByStart_pairwise _
  cases hl : (setup raw s).partials with
  | nil =>
    rw [hl] at hq
    exact absurd hq (by simp)
  | cons h0 t =>
    rw [hl] at hq hp hpw2
    rw [List.head?_cons, Option.some.injEq] at hq
    subst hq
    rcases List.mem_cons.mp hp with rfl | hp
    · exact le_refl _
    · exact (List.pairwise_cons.mp hpw2).1 p hp

/-- Concrete raw input for the `setup` witness: one partial with a single
control point at one second. -/
def rawW : List (List (ℝ × Breakpoint)) := [[((1 : ℝ), bpW)]]

/-- Concrete pre-`setup` engine state with a stale queue, a nonzero sample
clock and a nonzero admission index, so that the reset is observable. -/
noncomputable def engineW : RealTimeSynthesizer :=
  { srateHz := 10, fadeTimeSec := 1, OneOverSrate := 1 / 10,
    noise := fun _ => 0, partials := [], partialIdx := 3,
    processedSamples := 7, partialsBeingProcessed := [(0, 0)],
    buffer := fun _ => 0 }

theorem setup_resets_witness :
    (setup rawW engineW).partialsBeingProcessed = [] ∧
      (setup rawW engineW).processedSamples = 0 ∧
      (setup rawW engineW).partialIdx = 0 ∧
      (normalizeP engineW.srateHz engineW.fadeTimeSec
          [((1 : ℝ), bpW)]).startTime ≤
        (normalizeP engineW.srateHz engineW.fadeTimeSec
          [((1 : ℝ), bpW)]).startTime :=
  ⟨(setup_resets rawW engineW).1, (setup_resets rawW engineW).2.1,
   (setup_resets rawW engineW).2.2.1,
   (setup_resets rawW engineW).2.2.2.2 _
     (by simp [setup, rawW, sortByStart, insertByStart]) _
     (by simp [setup, rawW, sortByStart, insertByStart])⟩

/-! ## Fade-boundary normalization lemmas (spec 4.1). -/

theorem head?_getD {α : Type _} (l : List α) (x d : α)
    (h : l.head? = some x) : l.getD 0 d = x := by
  cases l with
  | nil => simp at h
  | cons a t =>
    rw [List.head?_cons, Option.some.injEq] at h
    rw [← h]
    rfl

theorem getLast?_getD {α : Type _} (l : List α) (x d : α)
    (h : l.getLast? = some x) : l.getD (l.length - 1) d = x := by
  rw [List.getLast?_eq_getElem?] at h
  rw [List.getD_eq_getElem?_getD, h]
  rfl

theorem getLast?_eq_getD {α : Type _} (l : List α) (d : α) (h : l ≠ []) :
    l.getLast? = some (l.getD (l.length - 1) d) := by
  have hlen : 0 < l.length := List.length_pos.mpr h
  rw [List.getLast?_eq_getElem?, List.getD_eq_getElem?_getD,
    List.getElem?_eq_getElem (by omega)]
  rfl

theorem getLast?_append_right {α : Type _} (l1 l2 : List α) (x : α)
    (h : l2.getLast? = some x) : (l1 ++ l2).getLast? = some x := by
  rw [List.getLast?_append, h]
  rfl

/-- The interpolated amplitude the kernel of spec 4.4 computes at absolute
offset `o` of a partial whose cursor starts at the first segment. -/
noncomputable def ampAtOffset (p : PartialStruct) (o : ℤ) : ℝ :=
  (interpAt p.breakpoints
    (advanceCursor p.breakpoints o 0 p.breakpoints.length) o).2.1

theorem advanceCursor_stop (bps : List (ℤ × Breakpoint)) (o : ℤ)
    (k fuel : ℕ)
    (h : ¬(k + 2 < bps.length ∧ (bpAt bps (k + 1)).1 ≤ o)) :
    advanceCursor bps o k fuel = k := by
  cases fuel with
  | zero => rfl
  | succ n =>
    simp only [advanceCursor]
    rw [if_neg h]

theorem chain_lt_bpAt (bps : List (ℤ × Breakpoint))
    (hch : List.Chain' (fun u v => u.1 < v.1) bps) (j1 j2 : ℕ)
    (h12 : j1 < j2) (h2 : j2 < bps.length) :
    (bpAt bps j1).1 < (bpAt bps j2).1 := by
  haveI : IsTrans (ℤ × Breakpoint) (fun u v => u.1 < v.1) :=
    ⟨fun a b c hab hbc => lt_trans hab hbc⟩
  have hpw := List.chain'_iff_pairwise.mp hch
  have h1 : j1 < bps.length := by omega
  have hg := List.pairwise_iff_get.mp hpw ⟨j1, h1⟩ ⟨j2, h2⟩ h12
  have e1 : bpAt bps j1 = bps.get ⟨j1, h1⟩ := by
    simp [bpAt, List.getD_eq_getElem?_getD, List.getElem?_eq_getElem h1]
  have e2 : bpAt bps j2 = bps.get ⟨j2, h2⟩ := by
    simp [bpAt, List.getD_eq_getElem?_getD, List.getElem?_eq_getElem h2]
  rw [e1, e2]
  exact hg

/-- The kernel's interpolated amplitude at a partial's very first sample is
the first breakpoint's amplitude (the cursor stays on the first segment and
the interpolation fraction is zero). -/
theorem ampAtOffset_first (p : PartialStruct)
    (hch : List.Chain' (fun u v => u.1 < v.1) p.breakpoints) :
    ampAtOffset p (startOff p) = (bpAt p.breakpoints 0).2.amplitude := by
  unfold ampAtOffset
  have hstop : advanceCursor p.breakpoints (startOff p) 0
      p.breakpoints.length = 0 := by
    apply advanceCursor_stop
    rintro ⟨h2, hle⟩
    have h01 : (bpAt p.breakpoints 0).1 < (bpAt p.breakpoints 1).1 :=
      chain_lt_bpAt p.breakpoints hch 0 1 (by omega) (by omega)
    unfold startOff at hle
    rw [show (0 : ℕ) + 1 = 1 from rfl] at hle
    omega
  rw [hstop]
  unfold interpAt
  dsimp only
  have hfrac : ((startOff p : ℝ) - ((bpAt p.breakpoints 0).1 : ℝ)) = 0 := by
    unfold startOff
    ring
  rw [hfrac, zero_div, zero_mul, add_zero]

theorem advanceCursor_last_aux (bps : List (ℤ × Breakpoint))
    (hch : List.Chain' (fun u v => u.1 < v.1) bps) :
    ∀ (fuel k : ℕ), k + 2 ≤ bps.length → bps.length - 2 - k ≤ fuel →
      advanceCursor bps (bpAt bps (bps.length - 1)).1 k fuel =
        bps.length - 2 := by
  intro fuel
  induction fuel with
  | zero =>
    intro k h1 h2
    have hk : k = bps.length - 2 := by omega
    rw [hk]
    rfl
  | succ n ihn =>
    intro k h1 h2
    by_cases hk : k + 2 < bps.length
    · have hcond : (bpAt bps (k + 1)).1 ≤ (bpAt bps (bps.length - 1)).1 :=
        le_of_lt (chain_lt_bpAt bps hch (k + 1) (bps.length - 1)
          (by omega) (by omega))
      simp only [advanceCursor]
      rw [if_pos ⟨hk, hcond⟩]
      exact ihn (k + 1) (by omega) (by omega)
    · simp only [advanceCursor]
      rw [if_neg (fun hand => hk hand.1)]
      omega

/-- The kernel's interpolated amplitude at a partial's very last sample is
the last breakpoint's amplitude (the cursor reaches the final segment and
the interpolation fraction is one). -/
theorem ampAtOffset_last (p : PartialStruct)
    (hch : List.Chain' (fun u v => u.1 < v.1) p.breakpoints)
    (hne : p.breakpoints ≠ []) :
    ampAtOffset p (endOff p - 1) =
      (bpAt p.breakpoints (p.breakpoints.length - 1)).2.amplitude := by
  have ho : endOff p - 1 = (bpAt p.breakpoints
      (p.breakpoints.length - 1)).1 := by
    unfold endOff
    ring
  unfold ampAtOffset
  rw [ho]
  have hlen : 0 < p.breakpoints.length := List.length_pos.mpr hne
  by_cases hm : 2 ≤ p.breakpoints.length
  · have hstop := advanceCursor_last_aux p.breakpoints hch
      p.breakpoints.length 0 (by omega) (by omega)
    rw [hstop]
    unfold interpAt
    dsimp only
    have hidx : p.breakpoints.length - 2 + 1 = p.breakpoints.length - 1 := by
      omega
    rw [hidx]
    have hdenom : ((bpAt p.breakpoints (p.breakpoints.length - 1)).1 : ℝ) -
        ((bpAt p.breakpoints (p.breakpoints.length - 2)).1 : ℝ) ≠ 0 := by
      have := chain_lt_bpAt p.breakpoints hch (p.breakpoints.length - 2)
        (p.breakpoints.length - 1) (by omega) (by omega)
      have hcast : ((bpAt p.breakpoints (p.breakpoints.length - 2)).1 : ℝ) <
          ((bpAt p.breakpoints (p.breakpoints.length - 1)).1 : ℝ) := by
        exact_mod_cast this
      linarith
    rw [div_self hdenom]
    ring
  · have h1 : p.breakpoints.length = 1 := by omega
    have hzero : p.breakpoints.length - 1 = 0 := by omega
    rw [hzero]
    have hstop : advanceCursor p.breakpoints (bpAt p.breakpoints 0).1 0
        p.breakpoints.length = 0 := by
      apply advanceCursor_stop
      rintro ⟨h2, _⟩
      omega
    rw [hstop]
    unfold interpAt
    dsimp only
    rw [sub_self, zero_div, zero_mul, add_zero]

theorem fadedPoints_ne_nil (fadeTime : ℝ) (raw : List (ℝ × Breakpoint))
    (hne : raw ≠ []) : fadedPoints fadeTime raw ≠ [] := by
  have h1 : 0 < raw.length := List.length_pos.mpr hne
  refine List.ne_nil_of_length_pos ?_
  simp only [fadedPoints, List.length_append]
  omega

theorem fadedPoints_head_anchor (fadeTime : ℝ)
    (raw : List (ℝ × Breakpoint))
    (hA : negligibleAmp < (rawHead raw).2.amplitude) :
    (fadedPoints fadeTime raw).head? =
      some ((rawHead raw).1 - fadeTime, zeroAnchor (rawHead raw).2) := by
  unfold fadedPoints
  rw [if_pos hA]
  rfl

theorem fadedPoints_head_plain (fadeTime : ℝ)
    (raw : List (ℝ × Breakpoint)) (hne : raw ≠ [])
    (hB : (rawHead raw).2.amplitude ≤ negligibleAmp) :
    (fadedPoints fadeTime raw).head? = some (rawHead raw) := by
  unfold fadedPoints
  rw [if_neg (not_lt.mpr hB)]
  cases raw with
  | nil => exact absurd rfl hne
  | cons r0 rest => rfl

theorem fadedPoints_last_anchor (fadeTime : ℝ)
    (raw : List (ℝ × Breakpoint))
    (hA : negligibleAmp < (rawLast raw).2.amplitude) :
    (fadedPoints fadeTime raw).getLast? =
      some ((rawLast raw).1 + fadeTime, zeroAnchor (rawLast raw).2) := by
  unfold fadedPoints
  rw [if_pos hA]
  exact List.getLast?_concat _

theorem fadedPoints_last_plain (fadeTime : ℝ)
    (raw : List (ℝ × Breakpoint)) (hne : raw ≠ [])
    (hB : (rawLast raw).2.amplitude ≤ negligibleAmp) :
    (fadedPoints fadeTime raw).getLast? = some (rawLast raw) := by
  unfold fadedPoints
  rw [if_neg (not_lt.mpr hB), List.append_nil]
  exact getLast?_append_right _ _ _ (getLast?_eq_getD raw (0, default) hne)

/-- Claim C4: fade-boundary normalization — for a raw partial normalized
with sample rate `Fs > 0` and fade time `Tf ≥ 0`, the snapshot's first
(resp. last) control point is a synthetic zero-amplitude anchor placed `Tf`
seconds before the first (resp. after the last) real point, except at an
end whose boundary amplitude is already at or below the negligible
threshold, where the original boundary point stays in place; consequently
the kernel's interpolated amplitude at the first and at the last
synthesized sample of the partial is at or below the negligible threshold
(exactly zero at an anchored end). -/
theorem normalizeP_fade_anchors (srate fadeTime : ℝ)
    (raw : List (ℝ × Breakpoint)) (hne : raw ≠ [])
    (_hsr : 0 < srate) (_hft : 0 ≤ fadeTime)
    (hch : List.Chain' (fun u v => u.1 < v.1)
      (normalizeP srate fadeTime raw).breakpoints) :
    (∀ b : Breakpoint, (zeroAnchor b).amplitude = 0) ∧
    (negligibleAmp < (rawHead raw).2.amplitude →
      (normalizeP srate fadeTime raw).breakpoints.head? =
        some (round (((rawHead raw).1 - fadeTime) * srate),
          zeroAnchor (rawHead raw).2) ∧
      (normalizeP srate fadeTime raw).startTime =
        (rawHead raw).1 - fadeTime) ∧
    ((rawHead raw).2.amplitude ≤ negligibleAmp →
      (normalizeP srate fadeTime raw).breakpoints.head? =
        some (round ((rawHead raw).1 * srate), (rawHead raw).2)) ∧
    (negligibleAmp < (rawLast raw).2.amplitude →
      (normalizeP srate fadeTime raw).breakpoints.getLast? =
        some (round (((rawLast raw).1 + fadeTime) * srate),
          zeroAnchor (rawLast raw).2) ∧
      (normalizeP srate fadeTime raw).endTime =
        (rawLast raw).1 + fadeTime) ∧
    ((rawLast raw).2.amplitude ≤ negligibleAmp →
      (normalizeP srate fadeTime raw).breakpoints.getLast? =
        some (round ((rawLast raw).1 * srate), (rawLast raw).2)) ∧
    ampAtOffset (normalizeP srate fadeTime raw)
      (startOff (normalizeP srate fadeTime raw)) ≤ negligibleAmp ∧
    ampAtOffset (normalizeP srate fadeTime raw)
      (endOff (normalizeP srate fadeTime raw) - 1) ≤ negligibleAmp := by
  have hbk : (normalizeP srate fadeTime raw).breakpoints =
      (fadedPoints fadeTime raw).map
        (fun tb => (round (tb.1 * srate), tb.2)) := rfl
  have hbkne : (normalizeP srate fadeTime raw).breakpoints ≠ [] := by
    rw [hbk]
    intro h
    exact fadedPoints_ne_nil fadeTime raw hne (List.map_eq_nil_iff.mp h)
  refine ⟨fun b => rfl, ?_, ?_, ?_, ?_, ?_, ?_⟩
  · intro hA
    constructor
    · rw [hbk, List.head?_map, fadedPoints_head_anchor fadeTime raw hA]
      rfl
    · show (rawHead (fadedPoints fadeTime raw)).1 = _
      unfold rawHead
      rw [head?_getD _ _ _ (fadedPoints_head_anchor fadeTime raw hA)]
      rfl
  · intro hB
    rw [hbk, List.head?_map, fadedPoints_head_plain fadeTime raw hne hB]
    rfl
  · intro hA
    constructor
    · rw [hbk, List.getLast?_map, fadedPoints_last_anchor fadeTime raw hA]
      rfl
    · show (rawLast (fadedPoints fadeTime raw)).1 = _
      unfold rawLast
      rw [getLast?_getD _ _ _ (fadedPoints_last_anchor fadeTime raw hA)]
      rfl
  · intro hB
    rw [hbk, List.getLast?_map, fadedPoints_last_plain fadeTime raw hne hB]
    rfl
  · rw [ampAtOffset_first _ hch]
    by_cases hA : negligibleAmp < (rawHead raw).2.amplitude
    · have hmapped : (normalizeP srate fadeTime raw).breakpoints.head? =
          some (round (((rawHead raw).1 - fadeTime) * srate),
            zeroAnchor (rawHead raw).2) := by
        rw [hbk, List.head?_map, fadedPoints_head_anchor fadeTime raw hA]
        rfl
      unfold bpAt
      rw [head?_getD _ _ _ hmapped]
      exact le_refl _
    · have hB := not_lt.mp hA
      have hmapped : (normalizeP srate fadeTime raw).breakpoints.head? =
          some (round ((rawHead raw).1 * srate), (rawHead raw).2) := by
        rw [hbk, List.head?_map, fadedPoints_head_plain fadeTime raw hne hB]
        rfl
      unfold bpAt
      rw [head?_getD _ _ _ hmapped]
      exact hB
  · rw [ampAtOffset_last _ hch hbkne]
    by_cases hA : negligibleAmp < (rawLast raw).2.amplitude
    · have hmapped : (normalizeP srate fadeTime raw).breakpoints.getLast? =
          some (round (((rawLast raw).1 + fadeTime) * srate),
            zeroAnchor (rawLast raw).2) := by
        rw [hbk, List.getLast?_map, fadedPoints_last_anchor fadeTime raw hA]
        rfl
      unfold bpAt
      rw [getLast?_getD _ _ _ hmapped]
      exact le_refl _
    · have hB := not_lt.mp hA
      have hmapped : (normalizeP srate fadeTime raw).breakpoints.getLast? =
          some (round ((rawLast raw).1 * srate), (rawLast raw).2) := by
        rw [hbk, List.getLast?_map, fadedPoints_last_plain fadeTime raw hne hB]
        rfl
      unfold bpAt
      rw [getLast?_getD _ _ _ hmapped]
      exact hB

/-- Concrete raw trajectory for the normalization witness: one control
point at two seconds with amplitude 1. -/
def rawC4 : List (ℝ × Breakpoint) := [((2 : ℝ), bpW)]

theorem normalizeP_fade_anchors_witness :
    negligibleAmp < (rawHead rawC4).2.amplitude ∧
      (normalizeP 1 1 rawC4).breakpoints.head? =
        some (round (((rawHead rawC4).1 - 1) * 1),
          zeroAnchor (rawHead rawC4).2) ∧
      ampAtOffset (normalizeP 1 1 rawC4)
        (startOff (normalizeP 1 1 rawC4)) ≤ negligibleAmp := by
  have hne : rawC4 ≠ [] := by simp [rawC4]
  have hfp : fadedPoints 1 rawC4 =
      [((2 : ℝ) - 1, zeroAnchor bpW), ((2 : ℝ), bpW),
       ((2 : ℝ) + 1, zeroAnchor bpW)] := by
    unfold fadedPoints
    rw [if_pos (show negligibleAmp < (rawHead rawC4).2.amplitude by
          norm_num [negligibleAmp, rawC4, rawHead, bpW]),
        if_pos (show negligibleAmp < (rawLast rawC4).2.amplitude by
          norm_num [negligibleAmp, rawC4, rawLast, bpW])]
    rfl
  have hch : List.Chain' (fun (u v : ℤ × Breakpoint) => u.1 < v.1)
      (normalizeP 1 1 rawC4).breakpoints := by
    rw [show (normalizeP 1 1 rawC4).breakpoints =
      (fadedPoints 1 rawC4).map (fun tb => (round (tb.1 * 1), tb.2))
      from rfl]
    rw [hfp]
    simp only [List.map_cons, List.map_nil, List.chain'_cons,
      List.chain'_singleton, and_true]
    constructor
    · show round (((2 : ℝ) - 1) * 1) < round ((2 : ℝ) * 1)
      norm_num [round_eq]
    · show round ((2 : ℝ) * 1) < round (((2 : ℝ) + 1) * 1)
      norm_num [round_eq]
  have hA : negligibleAmp < (rawHead rawC4).2.amplitude := by
    norm_num [negligibleAmp, rawC4, rawHead, bpW]
  have hthm := normalizeP_fade_anchors 1 1 rawC4 hne (by norm_num)
    (by norm_num) hch
  exact ⟨hA, (hthm.2.1 hA).1, hthm.2.2.2.2.2.1⟩

/-- Concrete well-formed engine for the block-independence witness: one
loaded, not-yet-admitted snapshot and an empty queue. -/
noncomputable def sW2 : RealTimeSynthesizer :=
  { srateHz := 10, fadeTimeSec := 1, OneOverSrate := 1 / 10,
    noise := fun _ => 0, partials := [pW6], partialIdx := 0,
    processedSamples := 0, partialsBeingProcessed := [],
    buffer := fun _ => 0 }

theorem synthesizeNext_block_independent_witness :
    WFEngine sW2 ∧
      synthesizeNext 2 (synthesizeNext 1 sW2) = synthesizeNext 3 sW2 := by
  have hwf : WFEngine sW2 := by
    refine ⟨by simp [sW2], by simp [sW2], by simp [sW2]⟩
  exact ⟨hwf, synthesizeNext_block_independent 1 2 sW2 hwf⟩
